import Mathlib

/-!
Verification development for the retrieval engine of the DecisionMaker repository
(`Retriever.py`).  The Python source is shallowly embedded: strings become
`List Char`, each Python helper becomes a Lean function with the same name
where possible, and the regular expressions of the source are translated to
explicit structurally recursive scanners whose behaviour matches the
leftmost-first, greedy semantics of Python's `re` module on the character
classes actually used by the program.

Unicode modelling notes (documented once here, used consistently below):
* Python's whitespace (`str.strip`, `str.isspace`, and `\s` of `re`) is
  modelled by `pyIsSpace`, covering ASCII whitespace, the control characters
  U+001C-U+001F, U+0085, NBSP and the Unicode space/line/paragraph
  separators.  These are the only whitespace characters Python recognises.
* `\w` of `re` is modelled by `isWordCharPy`: ASCII alphanumerics, the
  underscore and the Hebrew letter block U+05D0-U+05EA (the corpus of this
  program is Hebrew; other Unicode letter blocks never occur in it).
* `\d` is modelled by ASCII digits (`Char.isDigit`); non-ASCII decimal
  digits never occur in the corpus.
-/

/-- Strings of the embedded program are lists of characters. -/
abbrev Str := List Char

/-- Membership test for the Hebrew diacritics range of `_NIQQUD_RE`,
`[֑-ׇ]`. -/
def isNiqqud (c : Char) : Bool :=
  decide (0x0591 ≤ c.toNat ∧ c.toNat ≤ 0x05C7)

/-- Python whitespace: the characters for which `str.isspace()` holds, which
is also the character class `\s` of the `re` module on `str` patterns. -/
def pyIsSpace (c : Char) : Bool :=
  decide (c.toNat = 32 ∨ c.toNat = 9 ∨ c.toNat = 10 ∨ c.toNat = 13 ∨
    c.toNat = 11 ∨ c.toNat = 12 ∨ (28 ≤ c.toNat ∧ c.toNat ≤ 31) ∨
    c.toNat = 0x85 ∨ c.toNat = 0xa0 ∨ c.toNat = 0x1680 ∨
    (0x2000 ≤ c.toNat ∧ c.toNat ≤ 0x200a) ∨ c.toNat = 0x2028 ∨
    c.toNat = 0x2029 ∨ c.toNat = 0x202f ∨ c.toNat = 0x205f ∨
    c.toNat = 0x3000)

/-- Python `str.strip()`: remove leading and trailing whitespace. -/
def pyStrip (t : Str) : Str :=
  ((t.dropWhile pyIsSpace).reverse.dropWhile pyIsSpace).reverse

/-- Python `str.rstrip()`: remove trailing whitespace. -/
def pyRstrip (t : Str) : Str :=
  (t.reverse.dropWhile pyIsSpace).reverse

/-- Worker for `re.sub(r"[ \t]+", " ", text)`: the Boolean records whether the
previous character was a space or a tab (i.e. whether we are inside a run that
has already emitted its single replacement space). -/
def collapseAux : Bool → Str → Str
  | _, [] => []
  | prev, c :: cs =>
      if c = ' ' ∨ c = '\t' then
        (if prev then collapseAux true cs else ' ' :: collapseAux true cs)
      else c :: collapseAux false cs

/-- `_NIQQUD_RE.sub("", text)`: delete all Hebrew diacritics. -/
def removeNiqqud (t : Str) : Str := t.filter (fun c => !isNiqqud c)

/-- `normalize_hebrew` of the source: strip diacritics, collapse space/tab
runs to a single space, then `str.strip()`. -/
def normalize_hebrew (t : Str) : Str :=
  pyStrip (collapseAux false (removeNiqqud t))

/-- Length of the leading run of newline characters. -/
def nlRun (t : Str) : Nat := (t.takeWhile (fun c => c == '\n')).length

/-- Decision of `_PARAGRAPH_SEP_RE = r"\n{2,}|(?:\r?\n)+"` at a position whose
first character is `c` and remaining text is `cs`: `some true` when the first
alternative `\n{2,}` matches here (Python tries it first), `some false` when
only `(?:\r?\n)+` matches, `none` when no match starts here. -/
def sepKind (c : Char) (cs : Str) : Option Bool :=
  if c = '\n' ∧ 2 ≤ nlRun (c :: cs) then some true
  else if c = '\n' ∨ (c = '\r' ∧ cs.head? = some '\n') then some false
  else none

/-- `_PARAGRAPH_SEP_RE.split(text)`, as a character scanner.  Mode 0 scans
normally with `acc` holding the current chunk reversed; mode 1 consumes the
rest of a greedy `\n{2,}` match; mode 2 consumes the rest of a greedy
`(?:\r?\n)+` match.  When a match ends, scanning resumes at the next
character, so two adjacent matches produce an empty chunk between them,
exactly as `re.split` does. -/
def reSplitParaAux : Nat → Str → Str → List Str
  | 0, acc, [] => [acc.reverse]
  | _ + 1, _, [] => [[]]
  | 0, acc, c :: cs =>
      match sepKind c cs with
      | some true => acc.reverse :: reSplitParaAux 1 [] cs
      | some false => acc.reverse :: reSplitParaAux 2 [] cs
      | none => reSplitParaAux 0 (c :: acc) cs
  | 1, _, c :: cs =>
      if c = '\n' then reSplitParaAux 1 [] cs
      else
        match sepKind c cs with
        | some true => [] :: reSplitParaAux 1 [] cs
        | some false => [] :: reSplitParaAux 2 [] cs
        | none => reSplitParaAux 0 [c] cs
  | _ + 2, _, c :: cs =>
      if c = '\n' ∨ (c = '\r' ∧ cs.head? = some '\n') then reSplitParaAux 2 [] cs
      else reSplitParaAux 0 [c] cs

/-- The common post-processing of both branches of `split_to_paragraphs` and
of `split_to_sentences`: `[p.strip() for p in parts if p.strip()]`. -/
def stripParts (l : List Str) : List Str :=
  (l.map pyStrip).filter (fun p => !p.isEmpty)

/-- Line boundaries of Python `str.splitlines()` (besides `"\r\n"`). -/
def isLineBoundary (c : Char) : Bool :=
  decide (c.toNat = 10 ∨ c.toNat = 13 ∨ c.toNat = 11 ∨ c.toNat = 12 ∨
    c.toNat = 28 ∨ c.toNat = 29 ∨ c.toNat = 30 ∨ c.toNat = 0x85 ∨
    c.toNat = 0x2028 ∨ c.toNat = 0x2029)

/-- Splitting on every line boundary, keeping a possibly empty final chunk.
The boundary `"\r\n"` is handled by letting the carriage return vanish and
splitting at the following newline, so that the pair acts as one boundary. -/
def splitlinesAux : Str → List Str
  | [] => [[]]
  | c :: cs =>
      if c = '\r' ∧ cs.head? = some '\n' then splitlinesAux cs
      else if isLineBoundary c then [] :: splitlinesAux cs
      else (splitlinesAux cs).modifyHead (c :: ·)

/-- Python `str.splitlines()`: no trailing empty line is produced when the
text ends with a line boundary, and the empty text yields no lines. -/
def splitlinesPy (t : Str) : List Str :=
  match t with
  | [] => []
  | _ =>
      match (splitlinesAux t).getLast? with
      | some [] => (splitlinesAux t).dropLast
      | _ => splitlinesAux t

/-- `split_to_paragraphs` of the source: split on `_PARAGRAPH_SEP_RE`, strip
the chunks and drop the blank ones; if at most one part remains, fall back to
`text.splitlines()` with the same stripping. -/
def split_to_paragraphs (t : Str) : List Str :=
  let parts := stripParts (reSplitParaAux 0 [] t)
  if parts.length ≤ 1 then stripParts (splitlinesPy t) else parts

/-- Sentence-terminal punctuation of `_SENTENCE_SEP_RE`. -/
def isSentPunct (c : Char) : Bool := c == '.' || c == '!' || c == '?'

/-- Whether the head of the reversed current chunk (i.e. the previously
scanned character) satisfies the lookbehind `(?<=[\.!?])`.  At the start of
the text, and directly after a separator match (whose last character is
always whitespace), the lookbehind fails, which this encoding reproduces
because the chunk accumulator is then empty. -/
def headPunct : Str → Bool
  | p :: _ => isSentPunct p
  | [] => false

/-- `_SENTENCE_SEP_RE = r"(?<=[\.!?])\s+|\n+"` as a scanner: mode 0 scans
normally, mode 1 consumes the rest of a greedy `\s+` match, mode 2 the rest
of a greedy `\n+` match. -/
def sentSplitAux : Nat → Str → Str → List Str
  | 0, acc, [] => [acc.reverse]
  | _ + 1, _, [] => [[]]
  | 0, acc, c :: cs =>
      if headPunct acc ∧ pyIsSpace c then acc.reverse :: sentSplitAux 1 [] cs
      else if c = '\n' then acc.reverse :: sentSplitAux 2 [] cs
      else sentSplitAux 0 (c :: acc) cs
  | 1, _, c :: cs =>
      if pyIsSpace c then sentSplitAux 1 [] cs else sentSplitAux 0 [c] cs
  | _ + 2, _, c :: cs =>
      if c = '\n' then sentSplitAux 2 [] cs else sentSplitAux 0 [c] cs

/-- `split_to_sentences` of the source. -/
def split_to_sentences (t : Str) : List Str :=
  let candidates := stripParts (sentSplitAux 0 [] t)
  if candidates = [] then [pyStrip t] else candidates

/-- Separator class of `keywords_from_query`'s tokenizer,
`[\s,.;:()\[\]{}\"'־\-–—/\\]`. -/
def isTokenSep (c : Char) : Bool :=
  pyIsSpace c || c == ',' || c == '.' || c == ';' || c == ':' || c == '(' ||
  c == ')' || c == '[' || c == ']' || c == '\x7b' || c == '\x7d' ||
  c == '"' || c == '\'' || c == '־' || c == '-' || c == '–' || c == '—' ||
  c == '/' || c == '\\'

/-- `re.split` on runs of separator characters.  The Boolean mode is `true`
while consuming a separator run (the chunk before it has been emitted). -/
def tokenizeAux : Bool → Str → Str → List Str
  | false, acc, [] => [acc.reverse]
  | true, _, [] => [[]]
  | false, acc, c :: cs =>
      if isTokenSep c then acc.reverse :: tokenizeAux true [] cs
      else tokenizeAux false (c :: acc) cs
  | true, _, c :: cs =>
      if isTokenSep c then tokenizeAux true [] cs
      else tokenizeAux false [c] cs

/-- The stop-word set `_HE_STOPWORDS` of the source, verbatim. -/
def heStopwords : List Str :=
  ["של".data, "על".data, "אל".data, "עם".data, "אם".data, "או".data,
   "גם".data, "וכן".data, "וכן,".data, "וכן.".data, "וכן;".data,
   "וכן:".data, "וכן־".data,
   "כל".data, "ללא".data, "מבלי".data, "לא".data, "כן".data, "יכול".data,
   "יכולה".data, "יכולים".data, "יהיה".data, "תהיה".data,
   "לפי".data, "על־פי".data, "לפיה".data, "בהתאם".data, "לכך".data,
   "כמו".data, "וכו".data, "וכו'".data, "וכו’.".data, "וכו’".data,
   "וכו׳".data,
   "הוא".data, "היא".data, "הם".data, "הן".data, "שלו".data, "שלה".data,
   "שלהם".data, "להיות".data, "לה".data, "לו".data, "אליו".data,
   "אליה".data,
   "זה".data, "זאת".data, "אלה".data, "אשר".data, "כי".data, "כך".data,
   "כך,".data, "כך.".data, "כך;".data, "כך:".data,
   "מ-".data, "ל-".data, "ב-".data, "כ-".data, "ו-".data, "ש-".data]

/-- De-duplication preserving first occurrences: the `seen`-set loop at the
end of `keywords_from_query`. -/
def dedupFirst (seen : List Str) : List Str → List Str
  | [] => []
  | t :: ts =>
      if t ∈ seen then dedupFirst seen ts else t :: dedupFirst (t :: seen) ts

/-- `keywords_from_query` of the source. -/
def keywords_from_query (query : Str) (min_len : Nat := 2) : List Str :=
  let qn := normalize_hebrew query
  let tokens := tokenizeAux false [] qn
  let kws := tokens.filter
    (fun t => !t.isEmpty && decide (min_len ≤ t.length) &&
      !decide (t ∈ heStopwords))
  dedupFirst [] kws

/-- Python's substring test `needle in hay`. -/
def containsSub (hay needle : Str) : Bool :=
  needle.isPrefixOf hay ||
  match hay with
  | [] => false
  | _ :: t => containsSub t needle

/-- `match_score` of the source: the number of keywords that are non-empty
and occur as a substring of the normalized segment. -/
def match_score (text_norm : Str) (kws : List Str) : Nat :=
  kws.countP (fun kw => !kw.isEmpty && containsSub text_norm kw)

/-- Characters matched by `\w` (see the Unicode modelling notes above). -/
def isWordCharPy (c : Char) : Bool :=
  c.isAlphanum || c == '_' || decide (0x05D0 ≤ c.toNat ∧ c.toNat ≤ 0x05EA)

/-- Trailing character class of `_SECTION_REF_RE`, `[\w\(\)״"׳\-]`. -/
def isSecTailChar (c : Char) : Bool :=
  isWordCharPy c || c == '(' || c == ')' || c == '״' || c == '"' ||
  c == '׳' || c == '-'

/-- Attempt of `_SECTION_REF_RE = r"סעיף\s+[\d]+[\w\(\)״\"׳\-]*"` at one
position: the literal, then a non-empty greedy whitespace run, then a
non-empty greedy digit run, then a greedy run of tail characters.  Because
whitespace and digits are disjoint classes, the greedy runs need no
backtracking. -/
def sectionRefAt : Str → Option Str
  | 'ס' :: 'ע' :: 'י' :: 'ף' :: rest =>
      let ws := rest.takeWhile pyIsSpace
      if ws.isEmpty then none
      else
        let r2 := rest.dropWhile pyIsSpace
        let ds := r2.takeWhile Char.isDigit
        if ds.isEmpty then none
        else
          let r3 := r2.dropWhile Char.isDigit
          some (('ס' :: 'ע' :: 'י' :: 'ף' :: ws) ++ ds ++ r3.takeWhile isSecTailChar)
  | _ => none

/-- `extract_section_ref` of the source: `re.search`, i.e. the match at the
leftmost position where one exists. -/
def extract_section_ref : Str → Option Str
  | [] => none
  | c :: cs =>
      match sectionRefAt (c :: cs) with
      | some m => some m
      | none => extract_section_ref cs

/-- Python `content.index(sub)`: index of the first occurrence, or `none`
where Python raises `ValueError`. -/
def firstIdxOf : Str → Str → Option Nat
  | hay, needle =>
      if needle.isPrefixOf hay then some 0
      else
        match hay with
        | [] => none
        | _ :: t => (firstIdxOf t needle).map (· + 1)

/-- The window `content[max(0, idx - 400) : idx + n + 400]` used by the
citation fallback of `best_snippet_for_query_in_doc`. -/
def windowAt (content : Str) (idx n : Nat) : Str :=
  let a := idx - 400
  (content.drop a).take (idx + n + 400 - a)

/-- The final truncation step of `best_snippet_for_query_in_doc`:
`snippet = raw.strip()`, and when it exceeds the maximum,
`snippet[:max].rstrip() + "…"`. -/
def truncate_snippet (raw : Str) (max_snippet_chars : Nat) : Str :=
  let s := pyStrip raw
  if max_snippet_chars < s.length then pyRstrip (s.take max_snippet_chars) ++ ['…']
  else s

/-- The scanning loop `for seg in segs: if score > best_score: update`,
with its running best segment and best score. -/
def scanBest (kws : List Str) : List Str → Option Str → Nat → Option Str × Nat
  | [], best, bs => (best, bs)
  | p :: ps, best, bs =>
      let s := match_score (normalize_hebrew p) kws
      if bs < s then scanBest kws ps (some p) s else scanBest kws ps best bs

/-- `CriteriaDocument` of the source (already validated fields). -/
structure CriteriaDocument where
  id : Str
  content : Str
deriving DecidableEq

/-- `RetrievedSection` of the source. -/
structure RetrievedSection where
  source_id : Str
  text : Str
  section_ref : Option Str
deriving DecidableEq

/-- `RetrieverInput` of the source (already validated fields). -/
structure RetrieverInput where
  criteria_queries : List Str
  criteria_documents : List CriteriaDocument
deriving DecidableEq

/-- `RetrieverOutput` of the source. -/
structure RetrieverOutput where
  retrieved_sections : List RetrievedSection
deriving DecidableEq

/-- The windowed citation fallback of `best_snippet_for_query_in_doc`: look
up the first occurrence of the chosen paragraph in the document and search
the fixed 400-character window around it; where Python's `content.index`
raises `ValueError`, the reference stays `None`. -/
def windowRef (content raw : Str) : Option Str :=
  match firstIdxOf content raw with
  | some idx => extract_section_ref (windowAt content idx raw.length)
  | none => none

/-- Everything `best_snippet_for_query_in_doc` computes before the final
truncation: the chosen raw segment and its section reference.  Mirrors the
source line by line: keyword extraction, the paragraph scan, the sentence
scan entered only on a zero paragraph score, the strictly-positive-score
gate, and the windowed citation fallback used only when the chosen segment
is a paragraph (`best_para is not None`). -/
def best_snippet_core (query : Str) (doc : CriteriaDocument) :
    Option (Str × Option Str) :=
  let kws := keywords_from_query query
  if kws = [] then none
  else
    let content := doc.content
    let paragraphs := split_to_paragraphs content
    let pr := scanBest kws paragraphs none 0
    let sr :=
      if pr.2 = 0 then scanBest kws (split_to_sentences content) none 0
      else (none, pr.2)
    if sr.2 = 0 then none
    else
      match (match pr.1 with | some p => some p | none => sr.1) with
      | none => none
      | some raw =>
          if raw = [] then none
          else
            let ref0 := extract_section_ref raw
            let ref :=
              if ref0 = none ∧ pr.1 ≠ none then windowRef content raw
              else ref0
            some (raw, ref)

/-- `best_snippet_for_query_in_doc` of the source: the core result with the
snippet truncated to `max_snippet_chars` (default 700). -/
def best_snippet_for_query_in_doc (query : Str) (doc : CriteriaDocument)
    (max_snippet_chars : Nat := 700) : Option (Str × Option Str) :=
  (best_snippet_core query doc).map
    (fun pr => (truncate_snippet pr.1 max_snippet_chars, pr.2))

/-- The fixed Hebrew "no information found" text of the sentinel record. -/
def noInfoText : Str :=
  "לא נמצא מידע תואם לשאילתה במסמכי הקריטריונים שסופקו.".data

/-- The sentinel record emitted for a query with no candidates. -/
def sentinelSection : RetrievedSection :=
  { source_id := "N/A".data, text := noInfoText, section_ref := none }

/-- The candidate pool gathered by `retrieve` for one query: for every
document in order, the truncated best snippet together with the document id,
when one exists. -/
def gatherCandidates (docs : List CriteriaDocument) (q : Str) :
    List (Str × Str × Option Str) :=
  docs.filterMap (fun d =>
    match best_snippet_for_query_in_doc q d with
    | some pr => some (d.id, pr.1, pr.2)
    | none => none)

/-- The records `retrieve` emits for one query: the sentinel when the pool is
empty, otherwise the first `max_per_query` candidates in gathering order. -/
def retrieve_one (docs : List CriteriaDocument) (q : Str) (max_per_query : Nat) :
    List RetrievedSection :=
  let candidates := gatherCandidates docs q
  if candidates = [] then [sentinelSection]
  else (candidates.take max_per_query).map
    (fun t => { source_id := t.1, text := t.2.1, section_ref := t.2.2 })

/-- `retrieve` of the source: per-query batches concatenated in query order. -/
def retrieve (input_data : RetrieverInput) (max_per_query : Nat := 1) :
    RetrieverOutput :=
  { retrieved_sections :=
      input_data.criteria_queries.flatMap
        (fun q => retrieve_one input_data.criteria_documents q max_per_query) }

/-- The `non_empty` validator of `CriteriaDocument`: both fields must be
non-blank, otherwise pydantic raises a validation error. -/
def mkCriteriaDocument (i c : Str) : Except String CriteriaDocument :=
  if pyStrip i = [] ∨ pyStrip c = [] then
    Except.error "שדה מחרוזת לא יכול להיות ריק."
  else Except.ok { id := i, content := c }

/-- Validated construction of the document list, one `CriteriaDocument` at a
time (pydantic validates each document when it is constructed). -/
def buildDocs : List (Str × Str) → Except String (List CriteriaDocument)
  | [] => Except.ok []
  | p :: ps =>
      match mkCriteriaDocument p.1 p.2 with
      | Except.error e => Except.error e
      | Except.ok d =>
          match buildDocs ps with
          | Except.error e => Except.error e
          | Except.ok ds => Except.ok (d :: ds)

/-- Validated construction of `RetrieverInput`: the `non_empty_queries` and
`non_empty_docs` validators on top of per-document validation.  All matching
work (`retrieve`) takes a `RetrieverInput`, so it can only ever run on data
that passed this construction. -/
def mkRetrieverInput (qs : List Str) (dps : List (Str × Str)) :
    Except String RetrieverInput :=
  match buildDocs dps with
  | Except.error e => Except.error e
  | Except.ok ds =>
      if qs = [] ∨ ∃ q ∈ qs, pyStrip q = [] then
        Except.error "חובה לספק לפחות שאילתה אחת לא ריקה."
      else if ds = [] then
        Except.error "חובה לספק לפחות מסמך קריטריונים אחד."
      else Except.ok { criteria_queries := qs, criteria_documents := ds }

/-! ### Basic bridges between the executable tests and their propositional forms -/

/-- Boolean prefix test agrees with `IsPrefix`. -/
theorem prefBool {l₁ l₂ : Str} : l₁.isPrefixOf l₂ = true ↔ l₁ <+: l₂ :=
  List.isPrefixOf_iff_prefix

/-- The substring test of `match_score` agrees with `IsInfix`. -/
theorem containsSub_iff (hay needle : Str) :
    containsSub hay needle = true ↔ needle <:+: hay := by
  induction hay with
  | nil =>
      constructor
      · intro h
        cases needle with
        | nil => exact ⟨[], [], rfl⟩
        | cons c t => simp [containsSub, List.isPrefixOf] at h
      · rintro ⟨s, u, hsu⟩
        have hn : needle = [] := by
          have h2 := (List.append_eq_nil.mp hsu).1
          exact (List.append_eq_nil.mp h2).2
        subst hn
        simp [containsSub, List.isPrefixOf]
  | cons c t ih =>
      show (needle.isPrefixOf (c :: t) || containsSub t needle) = true ↔ _
      rw [Bool.or_eq_true, prefBool, ih]
      constructor
      · rintro (h | h)
        · exact h.isInfix
        · exact h.trans (List.suffix_cons c t).isInfix
      · intro h
        rcases h with ⟨s, u, hsu⟩
        cases s with
        | nil => exact Or.inl ⟨u, by simpa using hsu⟩
        | cons s0 s' =>
            right
            refine ⟨s', u, ?_⟩
            simpa using congrArg List.tail hsu

/-- Decomposing an infix of a cons cell. -/
theorem subOfCons {w : Str} {c : Char} {l : Str} (h : w <:+: c :: l) :
    w <+: c :: l ∨ w <:+: l := by
  rcases h with ⟨s, u, hsu⟩
  cases s with
  | nil => exact Or.inl ⟨u, by simpa using hsu⟩
  | cons s0 s' =>
      exact Or.inr ⟨s', u, by simpa using congrArg List.tail hsu⟩

/-- An infix of the empty list is empty. -/
theorem subOfNil {w : Str} (h : w <:+: ([] : Str)) : w = [] := by
  rcases h with ⟨s, u, hsu⟩
  have h2 := (List.append_eq_nil.mp hsu).1
  exact (List.append_eq_nil.mp h2).2

/-- `content.index` succeeds on every substring: the `ValueError` branch of
the windowed citation lookup is unreachable for actual substrings. -/
theorem firstIdxOf_total {hay w : Str} (h : w <:+: hay) :
    ∃ i, firstIdxOf hay w = some i := by
  induction hay with
  | nil =>
      have hw := subOfNil h
      subst hw
      exact ⟨0, by simp [firstIdxOf, List.isPrefixOf]⟩
  | cons c t ih =>
      by_cases hp : w.isPrefixOf (c :: t) = true
      · exact ⟨0, by simp [firstIdxOf, hp]⟩
      · have hsub : w <:+: t := by
          rcases subOfCons h with h1 | h1
          · exact absurd (prefBool.mpr h1) hp
          · exact h1
        obtain ⟨i, hi⟩ := ih hsub
        exact ⟨i + 1, by simp [firstIdxOf, hp, hi]⟩

/-- Filtering preserves the infix relation. -/
theorem subFilter (p : Char → Bool) {s t : Str} (h : s <:+: t) :
    s.filter p <:+: t.filter p := by
  rcases h with ⟨u, v, huv⟩
  exact ⟨u.filter p, v.filter p, by rw [← List.filter_append, ← List.filter_append, huv]⟩

/-- A list with no character satisfying `p` passes through `dropWhile p`
unscathed as an infix. -/
theorem subDropWhile (p : Char → Bool) {w y : Str} (hw : ∀ c ∈ w, p c = false)
    (hne : w ≠ []) (h : w <:+: y) : w <:+: y.dropWhile p := by
  induction y with
  | nil => exact absurd (subOfNil h) hne
  | cons c y' ih =>
      by_cases hc : p c = true
      · have hsub : w <:+: y' := by
          rcases subOfCons h with h1 | h1
          · exfalso
            rcases h1 with ⟨u, hu⟩
            cases w with
            | nil => exact hne rfl
            | cons w0 w' =>
                have hw0 : w0 = c := by simpa using congrArg List.head? hu
                have hpw := hw w0 (by simp)
                rw [hw0] at hpw
                rw [hpw] at hc
                simp at hc
          · exact h1
        simpa [List.dropWhile, hc] using ih hsub
      · simpa [List.dropWhile, hc] using h

/-- The stripped string is an infix of the original. -/
theorem pyStrip_sub (t : Str) : pyStrip t <:+: t := by
  have h1 : t.dropWhile pyIsSpace <:+ t := List.dropWhile_suffix pyIsSpace
  have h2 : (t.dropWhile pyIsSpace).reverse.dropWhile pyIsSpace <:+
      (t.dropWhile pyIsSpace).reverse := List.dropWhile_suffix pyIsSpace
  have h3 := h2.reverse
  simp only [List.reverse_reverse] at h3
  exact (h3.isInfix).trans h1.isInfix

/-- A non-empty whitespace-free infix survives `str.strip()`. -/
theorem subPyStrip {w y : Str} (hw : ∀ c ∈ w, pyIsSpace c = false)
    (hne : w ≠ []) (h : w <:+: y) : w <:+: pyStrip y := by
  have s1 : w <:+: y.dropWhile pyIsSpace := subDropWhile pyIsSpace hw hne h
  have s2 : w.reverse <:+: (y.dropWhile pyIsSpace).reverse := s1.reverse
  have s3 : w.reverse <:+: (y.dropWhile pyIsSpace).reverse.dropWhile pyIsSpace :=
    subDropWhile pyIsSpace (fun c hc => hw c (by simpa using hc))
      (by simpa using hne) s2
  have s4 := s3.reverse
  simpa [pyStrip] using s4

/-- Characters of the stripped string come from the original string. -/
theorem mem_pyStrip {c : Char} {t : Str} (h : c ∈ pyStrip t) : c ∈ t := by
  rcases pyStrip_sub t with ⟨u, v, huv⟩
  rw [← huv]
  simp
  exact Or.inr (Or.inl h)

/-- Extending an infix along a cons cell. -/
theorem subConsOf {w l : Str} (c : Char) (h : w <:+: l) : w <:+: c :: l := by
  rcases h with ⟨s, u, hsu⟩
  exact ⟨c :: s, u, by simp [hsu]⟩

/-- Space/tab-free prefixes survive whitespace collapsing. -/
theorem collapsePref {kw : Str} (hk : ∀ c ∈ kw, ¬(c = ' ' ∨ c = '\t')) :
    ∀ (y : Str) (prev : Bool), kw <+: y → kw <+: collapseAux prev y := by
  induction kw with
  | nil => exact fun y prev _ => List.nil_prefix
  | cons k kw' ih =>
      intro y prev hp
      rcases hp with ⟨t, ht⟩
      cases y with
      | nil => simp at ht
      | cons c y' =>
          have hkc : k = c := by simpa using congrArg List.head? ht
          have hns : ¬(c = ' ' ∨ c = '\t') := hkc ▸ hk k (by simp)
          have ht' : kw' ++ t = y' := by simpa using congrArg List.tail ht
          have hrec := ih (fun c hc => hk c (by simp [hc])) y' false ⟨t, ht'⟩
          rcases hrec with ⟨t2, ht2⟩
          refine ⟨t2, ?_⟩
          simp only [collapseAux, if_neg hns]
          simp [hkc, ht2]

/-- Space/tab-free infixes survive whitespace collapsing. -/
theorem collapseSub {kw : Str} (hk : ∀ c ∈ kw, ¬(c = ' ' ∨ c = '\t')) :
    ∀ (y : Str) (prev : Bool), kw <:+: y → kw <:+: collapseAux prev y := by
  intro y
  induction y with
  | nil =>
      intro prev h
      have := subOfNil h
      subst this
      exact ⟨[], [], rfl⟩
  | cons c y' ih =>
      intro prev h
      rcases subOfCons h with h1 | h1
      · exact (collapsePref hk (c :: y') prev h1).isInfix
      · by_cases hc : c = ' ' ∨ c = '\t'
        · simp only [collapseAux, if_pos hc]
          cases prev with
          | true => exact ih true h1
          | false => exact subConsOf ' ' (ih true h1)
        · simp only [collapseAux, if_neg hc]
          exact subConsOf c (ih false h1)

/-- Space/tab-free prefixes of the collapsed text are prefixes of the
original text. -/
theorem collapsePrefDown {kw : Str} (hk : ∀ c ∈ kw, ¬(c = ' ' ∨ c = '\t')) :
    ∀ (y : Str), kw <+: collapseAux false y → kw <+: y := by
  induction kw with
  | nil => exact fun y _ => List.nil_prefix
  | cons k kw' ih =>
      intro y hp
      cases y with
      | nil => simp [collapseAux] at hp
      | cons c y' =>
          by_cases hc : c = ' ' ∨ c = '\t'
          · exfalso
            simp only [collapseAux, if_pos hc] at hp
            have hk0 : k = ' ' := by
              rcases hp with ⟨t, ht⟩
              simpa using congrArg List.head? ht
            exact hk k (by simp) (Or.inl hk0)
          · simp only [collapseAux, if_neg hc] at hp
            have hkc : k = c := by
              rcases hp with ⟨t, ht⟩
              simpa using congrArg List.head? ht
            have hp' : kw' <+: collapseAux false y' := by
              rcases hp with ⟨t, ht⟩
              exact ⟨t, by simpa using congrArg List.tail ht⟩
            rcases ih (fun c hc => hk c (by simp [hc])) y' hp' with ⟨t2, ht2⟩
            exact ⟨t2, by simp [hkc, ht2]⟩

/-- Non-empty space/tab-free infixes of the collapsed text are infixes of
the original text. -/
theorem collapseSubDown {kw : Str} (hk : ∀ c ∈ kw, ¬(c = ' ' ∨ c = '\t'))
    (hne : kw ≠ []) : ∀ (y : Str) (prev : Bool), kw <:+: collapseAux prev y → kw <:+: y := by
  intro y
  induction y with
  | nil =>
      intro prev h
      simp only [collapseAux] at h
      exact absurd (subOfNil h) hne
  | cons c y' ih =>
      intro prev h
      by_cases hc : c = ' ' ∨ c = '\t'
      · simp only [collapseAux, if_pos hc] at h
        cases prev with
        | true => exact subConsOf c (ih true h)
        | false =>
            rcases subOfCons h with h1 | h1
            · exfalso
              rcases h1 with ⟨t, ht⟩
              cases kw with
              | nil => exact hne rfl
              | cons k kw' =>
                  have hk0 : k = ' ' := by simpa using congrArg List.head? ht
                  exact hk k (by simp) (Or.inl hk0)
            · exact subConsOf c (ih true h1)
      · simp only [collapseAux, if_neg hc] at h
        rcases subOfCons h with h1 | h1
        · cases kw with
          | nil => exact absurd rfl hne
          | cons k kw' =>
              rcases h1 with ⟨t, ht⟩
              have hkc : k = c := by simpa using congrArg List.head? ht
              have hp' : kw' <+: collapseAux false y' :=
                ⟨t, by simpa using congrArg List.tail ht⟩
              have := collapsePrefDown (fun c hc => hk c (by simp [hc])) y' hp'
              rcases this with ⟨t2, ht2⟩
              exact (show (k :: kw') <+: c :: y' from ⟨t2, by simp [hkc, ht2]⟩).isInfix
        · exact subConsOf c (ih false h1)

/-- Characters of the collapsed text come from the original text, except for
the replacement spaces. -/
theorem memCollapse {c : Char} : ∀ {prev : Bool} {y : Str},
    c ∈ collapseAux prev y → c ∈ y ∨ c = ' ' := by
  intro prev y
  induction y generalizing prev with
  | nil => intro h; simp [collapseAux] at h
  | cons d y' ih =>
      intro h
      by_cases hd : d = ' ' ∨ d = '\t'
      · simp only [collapseAux, if_pos hd] at h
        cases prev with
        | true =>
            rcases ih h with h1 | h1
            · exact Or.inl (by simp [h1])
            · exact Or.inr h1
        | false =>
            rcases List.mem_cons.mp h with h1 | h1
            · exact Or.inr h1
            · rcases ih h1 with h2 | h2
              · exact Or.inl (by simp [h2])
              · exact Or.inr h2
      · simp only [collapseAux, if_neg hd] at h
        rcases List.mem_cons.mp h with h1 | h1
        · exact Or.inl (by simp [h1])
        · rcases ih h1 with h2 | h2
          · exact Or.inl (by simp [h2])
          · exact Or.inr h2

/-- A string of whitespace strips to nothing. -/
theorem pyStripNil {t : Str} (h : ∀ c ∈ t, pyIsSpace c = true) : pyStrip t = [] := by
  have h1 : t.dropWhile pyIsSpace = [] := List.dropWhile_eq_nil_iff.mpr h
  simp [pyStrip, h1]

/-- A whitespace-only string normalizes to the empty string. -/
theorem normalizeOfAllWs {t : Str} (h : ∀ c ∈ t, pyIsSpace c = true) :
    normalize_hebrew t = [] := by
  refine pyStripNil ?_
  intro c hc
  rcases memCollapse hc with h1 | h1
  · exact h c (List.mem_of_mem_filter h1)
  · subst h1
    decide

/-- `match_score` vanishes exactly when no non-empty keyword occurs in the
normalized text. -/
theorem match_score_eq_zero {tn : Str} {kws : List Str} :
    match_score tn kws = 0 ↔ ∀ kw ∈ kws, kw = [] ∨ ¬ kw <:+: tn := by
  rw [match_score, List.countP_eq_zero]
  constructor
  · intro h kw hkw
    by_cases hne : kw = []
    · exact Or.inl hne
    · refine Or.inr ?_
      intro hsub
      exact h kw hkw (by simp [List.isEmpty_iff, hne, (containsSub_iff tn kw).mpr hsub])
  · intro h kw hkw hb
    simp only [Bool.and_eq_true, Bool.not_eq_true'] at hb
    rcases h kw hkw with h1 | h1
    · rw [h1] at hb
      simp [List.isEmpty] at hb
    · exact h1 ((containsSub_iff tn kw).mp hb.2)

/-- `match_score` is positive exactly when some non-empty keyword occurs. -/
theorem match_score_pos {tn : Str} {kws : List Str} :
    0 < match_score tn kws ↔ ∃ kw ∈ kws, kw ≠ [] ∧ kw <:+: tn := by
  rw [match_score, List.countP_pos_iff]
  constructor
  · rintro ⟨kw, hkw, hb⟩
    simp only [Bool.and_eq_true, Bool.not_eq_true'] at hb
    refine ⟨kw, hkw, ?_, (containsSub_iff tn kw).mp hb.2⟩
    intro hnil
    rw [hnil] at hb
    simp [List.isEmpty] at hb
  · rintro ⟨kw, hkw, hne, hsub⟩
    refine ⟨kw, hkw, ?_⟩
    simp [List.isEmpty_iff, hne, (containsSub_iff tn kw).mpr hsub]

/-- Spec-side definition: the highest score over a list of segments. -/
def specMaxScore (kws : List Str) (parts : List Str) : Nat :=
  (parts.map (fun p => match_score (normalize_hebrew p) kws)).foldr max 0

theorem specMaxScore_cons (kws : List Str) (p : Str) (ps : List Str) :
    specMaxScore kws (p :: ps) =
      max (match_score (normalize_hebrew p) kws) (specMaxScore kws ps) := rfl

/-- Every segment scores at most the maximum. -/
theorem score_le_specMaxScore {kws : List Str} {parts : List Str} {p : Str}
    (h : p ∈ parts) : match_score (normalize_hebrew p) kws ≤ specMaxScore kws parts := by
  induction parts with
  | nil => simp at h
  | cons q ps ih =>
      rcases List.mem_cons.mp h with h1 | h1
      · subst h1
        rw [specMaxScore_cons]
        exact Nat.le_max_left _ _
      · rw [specMaxScore_cons]
        exact le_trans (ih h1) (Nat.le_max_right _ _)

/-- If all segments score zero, the maximum is zero. -/
theorem specMaxScore_eq_zero {kws : List Str} {parts : List Str} :
    specMaxScore kws parts = 0 ↔
      ∀ p ∈ parts, match_score (normalize_hebrew p) kws = 0 := by
  induction parts with
  | nil => simp [specMaxScore]
  | cons q ps ih =>
      rw [specMaxScore_cons]
      simp only [Nat.max_eq_zero_iff, List.mem_cons]
      constructor
      · rintro ⟨h1, h2⟩ p (hp | hp)
        · exact hp ▸ h1
        · exact ih.mp h2 p hp
      · intro h
        exact ⟨h q (Or.inl rfl), ih.mpr (fun p hp => h p (Or.inr hp))⟩

/-- Spec-side definition: `raw` is the first segment of `parts` attaining the
maximal score `s` ("first-wins" tie-breaking). -/
def FirstArgmax (kws : List Str) (parts : List Str) (raw : Str) (s : Nat) : Prop :=
  ∃ i, ∃ h : i < parts.length, parts.get ⟨i, h⟩ = raw ∧
    match_score (normalize_hebrew raw) kws = s ∧
    ∀ j, ∀ hj : j < parts.length, j < i →
      match_score (normalize_hebrew (parts.get ⟨j, hj⟩)) kws < s

theorem firstArgmax_head {kws : List Str} {p : Str} (ps : List Str)
    (h : match_score (normalize_hebrew p) kws = s) :
    FirstArgmax kws (p :: ps) p s :=
  ⟨0, Nat.succ_pos _, rfl, h, fun j _ hlt => absurd hlt (Nat.not_lt_zero j)⟩

theorem firstArgmax_shift {kws : List Str} {ps : List Str} {raw p : Str} {s : Nat}
    (h : FirstArgmax kws ps raw s)
    (hp : match_score (normalize_hebrew p) kws < s) :
    FirstArgmax kws (p :: ps) raw s := by
  rcases h with ⟨i, hi, hget, hsc, hbef⟩
  refine ⟨i + 1, by simpa using Nat.succ_lt_succ hi, by simpa using hget, hsc, ?_⟩
  intro j hj hlt
  cases j with
  | zero => simpa using hp
  | succ j' =>
      have hj' : j' < ps.length := by simpa using hj
      have := hbef j' hj' (by omega)
      simpa using this

/-- A segment chosen by `FirstArgmax` is a member of the list. -/
theorem firstArgmax_mem {kws : List Str} {parts : List Str} {raw : Str} {s : Nat}
    (h : FirstArgmax kws parts raw s) : raw ∈ parts := by
  rcases h with ⟨i, hi, hget, _, _⟩
  exact hget ▸ List.get_mem parts i hi

/-- The scanning loop leaves its accumulator untouched when nothing beats the
running best score. -/
theorem scanBest_stay {kws : List Str} : ∀ {parts : List Str} {best : Option Str}
    {bs : Nat}, specMaxScore kws parts ≤ bs → scanBest kws parts best bs = (best, bs) := by
  intro parts
  induction parts with
  | nil => intro best bs _; rfl
  | cons p ps ih =>
      intro best bs h
      rw [specMaxScore_cons] at h
      have h1 : match_score (normalize_hebrew p) kws ≤ bs :=
        le_trans (Nat.le_max_left _ _) h
      have h2 : specMaxScore kws ps ≤ bs := le_trans (Nat.le_max_right _ _) h
      simp only [scanBest, if_neg (Nat.not_lt.mpr h1)]
      exact ih h2

/-- When something beats the running best score, the scanning loop returns
the first segment attaining the maximal score, together with that score. -/
theorem scanBest_argmax {kws : List Str} : ∀ {parts : List Str} {best : Option Str}
    {bs : Nat}, bs < specMaxScore kws parts →
    ∃ raw, scanBest kws parts best bs = (some raw, specMaxScore kws parts) ∧
      FirstArgmax kws parts raw (specMaxScore kws parts) := by
  intro parts
  induction parts with
  | nil => intro best bs h; simp [specMaxScore] at h
  | cons p ps ih =>
      intro best bs h
      rw [specMaxScore_cons] at h ⊢
      by_cases hb : bs < match_score (normalize_hebrew p) kws
      · simp only [scanBest, if_pos hb]
        by_cases h2 : specMaxScore kws ps ≤ match_score (normalize_hebrew p) kws
        · have hmax : max (match_score (normalize_hebrew p) kws) (specMaxScore kws ps) =
              match_score (normalize_hebrew p) kws := Nat.max_eq_left h2
          rw [hmax]
          exact ⟨p, scanBest_stay (by omega), firstArgmax_head ps rfl⟩
        · push_neg at h2
          have hmax : max (match_score (normalize_hebrew p) kws) (specMaxScore kws ps) =
              specMaxScore kws ps := Nat.max_eq_right (le_of_lt h2)
          rw [hmax]
          obtain ⟨raw, heq, hfa⟩ := ih h2
          exact ⟨raw, heq, firstArgmax_shift hfa h2⟩
      · push_neg at hb
        simp only [scanBest, if_neg (Nat.not_lt.mpr hb)]
        have h2 : bs < specMaxScore kws ps := by
          rcases lt_max_iff.mp h with h3 | h3
          · omega
          · exact h3
        have hmax : max (match_score (normalize_hebrew p) kws) (specMaxScore kws ps) =
            specMaxScore kws ps := Nat.max_eq_right (by omega)
        rw [hmax]
        obtain ⟨raw, heq, hfa⟩ := ih h2
        exact ⟨raw, heq, firstArgmax_shift hfa (by omega)⟩

/-- Spec-side character view of `_PARAGRAPH_SEP_RE`: a character belongs to
some separator match exactly when it is a newline, or a carriage return
directly followed by a newline.  Splitting at every such character one at a
time differs from the regex split only by empty chunks, which the stripping
comprehension drops; `reSplit_charSplit` below proves the two agree after
stripping. -/
def charSplitPara : Str → List Str
  | [] => [[]]
  | c :: cs =>
      if c = '\n' ∨ (c = '\r' ∧ cs.head? = some '\n') then [] :: charSplitPara cs
      else (charSplitPara cs).modifyHead (c :: ·)

/-- `charSplitPara` always produces its head chunk as a prefix of the text. -/
theorem charSplitPara_head : ∀ t : Str,
    ∃ hd tl, charSplitPara t = hd :: tl ∧ hd <+: t := by
  intro t
  induction t with
  | nil => exact ⟨[], [], rfl, List.nil_prefix⟩
  | cons c cs ih =>
      by_cases hsep : c = '\n' ∨ (c = '\r' ∧ cs.head? = some '\n')
      · exact ⟨[], charSplitPara cs, by simp [charSplitPara, hsep], List.nil_prefix⟩
      · rcases ih with ⟨hd, tl, heq, hpref⟩
        refine ⟨c :: hd, tl, ?_, ?_⟩
        · simp [charSplitPara, hsep, heq]
        · rcases hpref with ⟨u, hu⟩
          exact ⟨u, by simp [hu]⟩

/-- Every chunk of `charSplitPara` is an infix of the text. -/
theorem charSplitPara_mem_sub : ∀ (t : Str) (p : Str),
    p ∈ charSplitPara t → p <:+: t := by
  intro t
  induction t with
  | nil =>
      intro p hp
      simp [charSplitPara] at hp
      simp [hp]
  | cons c cs ih =>
      intro p hp
      by_cases hsep : c = '\n' ∨ (c = '\r' ∧ cs.head? = some '\n')
      · simp only [charSplitPara, if_pos hsep, List.mem_cons] at hp
        rcases hp with hp | hp
        · simp [hp]
        · exact subConsOf c (ih p hp)
      · rcases charSplitPara_head cs with ⟨hd, tl, heq, hpref⟩
        simp only [charSplitPara, if_neg hsep, heq, List.modifyHead, List.mem_cons] at hp
        rcases hp with hp | hp
        · subst hp
          rcases hpref with ⟨u, hu⟩
          exact ⟨[], u, by simp [hu]⟩
        · exact subConsOf c (ih p (heq ▸ List.mem_cons_of_mem hd hp))

/-- A newline-free and carriage-return-free prefix is a prefix of the head
chunk of `charSplitPara`. -/
theorem charSplitPara_pref_cover : ∀ (t u : Str),
    (∀ c ∈ u, ¬(c = '\n' ∨ c = '\r')) → u <+: t →
    ∃ hd tl, charSplitPara t = hd :: tl ∧ u <+: hd := by
  intro t
  induction t with
  | nil =>
      intro u _ hu
      have := List.prefix_nil.mp hu
      subst this
      exact ⟨[], [], rfl, List.nil_prefix⟩
  | cons c cs ih =>
      intro u hw hu
      cases u with
      | nil =>
          rcases charSplitPara_head (c :: cs) with ⟨hd, tl, heq, _⟩
          exact ⟨hd, tl, heq, List.nil_prefix⟩
      | cons u0 u' =>
          have hu0 : u0 = c := by
            rcases hu with ⟨v, hv⟩
            simpa using congrArg List.head? hv
          have hcnot : ¬(c = '\n' ∨ c = '\r') := hu0 ▸ hw u0 (by simp)
          have hsep : ¬(c = '\n' ∨ (c = '\r' ∧ cs.head? = some '\n')) := by
            rintro (h | ⟨h, _⟩)
            · exact hcnot (Or.inl h)
            · exact hcnot (Or.inr h)
          have hu' : u' <+: cs := by
            rcases hu with ⟨v, hv⟩
            exact ⟨v, by simpa using congrArg List.tail hv⟩
          rcases ih u' (fun d hd => hw d (by simp [hd])) hu' with ⟨hd, tl, heq, hpref⟩
          refine ⟨c :: hd, tl, by simp [charSplitPara, hsep, heq], ?_⟩
          rcases hpref with ⟨v, hv⟩
          exact ⟨v, by simp [hu0, hv]⟩

/-- A non-empty infix free of newlines and carriage returns lies inside a
single chunk of `charSplitPara`. -/
theorem charSplitPara_cover : ∀ (t w : Str), w ≠ [] →
    (∀ c ∈ w, ¬(c = '\n' ∨ c = '\r')) → w <:+: t →
    ∃ p ∈ charSplitPara t, w <:+: p := by
  intro t
  induction t with
  | nil =>
      intro w hne _ hsub
      exact absurd (subOfNil hsub) hne
  | cons c cs ih =>
      intro w hne hw hsub
      by_cases hsep : c = '\n' ∨ (c = '\r' ∧ cs.head? = some '\n')
      · rcases subOfCons hsub with h1 | h1
        · exfalso
          cases w with
          | nil => exact hne rfl
          | cons w0 w' =>
              have hw0 : w0 = c := by
                rcases h1 with ⟨v, hv⟩
                simpa using congrArg List.head? hv
              rcases hsep with h | ⟨h, _⟩
              · exact hw w0 (by simp) (Or.inl (hw0.trans h))
              · exact hw w0 (by simp) (Or.inr (hw0.trans h))
        · rcases ih w hne hw h1 with ⟨p, hp, hps⟩
          exact ⟨p, by simp [charSplitPara, hsep, List.mem_cons, hp], hps⟩
      · rcases subOfCons hsub with h1 | h1
        · cases w with
          | nil => exact absurd rfl hne
          | cons w0 w' =>
              have hw0 : w0 = c := by
                rcases h1 with ⟨v, hv⟩
                simpa using congrArg List.head? hv
              have hw' : w' <+: cs := by
                rcases h1 with ⟨v, hv⟩
                exact ⟨v, by simpa using congrArg List.tail hv⟩
              rcases charSplitPara_pref_cover cs w' (fun d hd => hw d (by simp [hd])) hw'
                with ⟨hd2, tl2, heq2, hpref2⟩
              refine ⟨c :: hd2, ?_, ?_⟩
              · simp [charSplitPara, hsep, heq2, List.modifyHead]
              · rcases hpref2 with ⟨v, hv⟩
                exact (show (w0 :: w') <+: c :: hd2 from ⟨v, by simp [hw0, hv]⟩).isInfix
        · rcases ih w hne hw h1 with ⟨p, hp, hps⟩
          rcases charSplitPara_head cs with ⟨hd, tl, heq, _⟩
          rw [heq] at hp
          rcases List.mem_cons.mp hp with hp1 | hp1
          · exact ⟨c :: hd, by simp [charSplitPara, hsep, heq, List.modifyHead],
              hp1 ▸ subConsOf c hps⟩
          · exact ⟨p, by simp [charSplitPara, hsep, heq, List.modifyHead, hp1], hps⟩

/-- `splitlinesAux` always produces its head chunk as a prefix of the text. -/
theorem splitlinesAux_head : ∀ t : Str,
    ∃ hd tl, splitlinesAux t = hd :: tl ∧ hd <+: t := by
  intro t
  induction t with
  | nil => exact ⟨[], [], rfl, List.nil_prefix⟩
  | cons c cs ih =>
      by_cases hskip : c = '\r' ∧ cs.head? = some '\n'
      · cases cs with
        | nil => simp at hskip
        | cons c2 cs' =>
            have hc2 : c2 = '\n' := by simpa using hskip.2
            subst hc2
            refine ⟨[], splitlinesAux cs', ?_, List.nil_prefix⟩
            have h1 : splitlinesAux (c :: '\n' :: cs') = splitlinesAux ('\n' :: cs') := by
              simp [splitlinesAux, hskip]
            have h2 : splitlinesAux ('\n' :: cs') = [] :: splitlinesAux cs' := by
              have hno : ¬('\n' = '\r' ∧ cs'.head? = some '\n') := by simp
              simp [splitlinesAux, hno, show isLineBoundary '\n' = true by decide]
            rw [h1, h2]
      · by_cases hb : isLineBoundary c = true
        · exact ⟨[], splitlinesAux cs, by simp [splitlinesAux, hskip, hb], List.nil_prefix⟩
        · rcases ih with ⟨hd, tl, heq, hpref⟩
          refine ⟨c :: hd, tl, by simp [splitlinesAux, hskip, hb, heq], ?_⟩
          rcases hpref with ⟨u, hu⟩
          exact ⟨u, by simp [hu]⟩

/-- Every chunk of `splitlinesAux` is an infix of the text. -/
theorem splitlinesAux_mem_sub : ∀ (t : Str) (p : Str),
    p ∈ splitlinesAux t → p <:+: t := by
  intro t
  induction t with
  | nil =>
      intro p hp
      simp [splitlinesAux] at hp
      simp [hp]
  | cons c cs ih =>
      intro p hp
      by_cases hskip : c = '\r' ∧ cs.head? = some '\n'
      · rw [show splitlinesAux (c :: cs) = splitlinesAux cs by
          simp [splitlinesAux, hskip]] at hp
        exact subConsOf c (ih p hp)
      · by_cases hb : isLineBoundary c = true
        · simp only [splitlinesAux, if_neg hskip, if_pos hb, List.mem_cons] at hp
          rcases hp with hp | hp
          · simp [hp]
          · exact subConsOf c (ih p hp)
        · rcases splitlinesAux_head cs with ⟨hd, tl, heq, hpref⟩
          simp only [splitlinesAux, if_neg hskip, if_neg hb, heq, List.modifyHead,
            List.mem_cons] at hp
          rcases hp with hp | hp
          · subst hp
            rcases hpref with ⟨u, hu⟩
            exact ⟨[], u, by simp [hu]⟩
          · exact subConsOf c (ih p (heq ▸ List.mem_cons_of_mem hd hp))

/-- A boundary-free prefix is a prefix of the head chunk of
`splitlinesAux`. -/
theorem splitlinesAux_pref_cover : ∀ (t u : Str),
    (∀ c ∈ u, isLineBoundary c = false) → u <+: t →
    ∃ hd tl, splitlinesAux t = hd :: tl ∧ u <+: hd := by
  intro t
  induction t with
  | nil =>
      intro u _ hu
      have := List.prefix_nil.mp hu
      subst this
      exact ⟨[], [], rfl, List.nil_prefix⟩
  | cons c cs ih =>
      intro u hw hu
      cases u with
      | nil =>
          rcases splitlinesAux_head (c :: cs) with ⟨hd, tl, heq, _⟩
          exact ⟨hd, tl, heq, List.nil_prefix⟩
      | cons u0 u' =>
          have hu0 : u0 = c := by
            rcases hu with ⟨v, hv⟩
            simpa using congrArg List.head? hv
          have hcb : isLineBoundary c = false := hu0 ▸ hw u0 (by simp)
          have hskip : ¬(c = '\r' ∧ cs.head? = some '\n') := by
            rintro ⟨h, _⟩
            rw [h] at hcb
            simp [isLineBoundary] at hcb
          have hu' : u' <+: cs := by
            rcases hu with ⟨v, hv⟩
            exact ⟨v, by simpa using congrArg List.tail hv⟩
          rcases ih u' (fun d hd => hw d (by simp [hd])) hu' with ⟨hd, tl, heq, hpref⟩
          refine ⟨c :: hd, tl, by simp [splitlinesAux, hskip, hcb, heq], ?_⟩
          rcases hpref with ⟨v, hv⟩
          exact ⟨v, by simp [hu0, hv]⟩

/-- A non-empty boundary-free infix lies inside a single chunk of
`splitlinesAux`. -/
theorem splitlinesAux_cover : ∀ (t w : Str), w ≠ [] →
    (∀ c ∈ w, isLineBoundary c = false) → w <:+: t →
    ∃ p ∈ splitlinesAux t, w <:+: p := by
  intro t
  induction t with
  | nil =>
      intro w hne _ hsub
      exact absurd (subOfNil hsub) hne
  | cons c cs ih =>
      intro w hne hw hsub
      have headNotBoundary : ∀ {w0 : Char} {w' : Str}, w = w0 :: w' → w <+: c :: cs →
          isLineBoundary c = false := by
        intro w0 w' hweq hpref
        subst hweq
        rcases hpref with ⟨v, hv⟩
        have : w0 = c := by simpa using congrArg List.head? hv
        exact this ▸ hw w0 (by simp)
      by_cases hskip : c = '\r' ∧ cs.head? = some '\n'
      · rcases subOfCons hsub with h1 | h1
        · exfalso
          cases w with
          | nil => exact hne rfl
          | cons w0 w' =>
              have := headNotBoundary rfl h1
              rw [hskip.1] at this
              simp [isLineBoundary] at this
        · rcases ih w hne hw h1 with ⟨p, hp, hps⟩
          exact ⟨p, by rw [show splitlinesAux (c :: cs) = splitlinesAux cs by
            simp [splitlinesAux, hskip]]; exact hp, hps⟩
      · by_cases hb : isLineBoundary c = true
        · rcases subOfCons hsub with h1 | h1
          · exfalso
            cases w with
            | nil => exact hne rfl
            | cons w0 w' =>
                have := headNotBoundary rfl h1
                rw [this] at hb
                simp at hb
          · rcases ih w hne hw h1 with ⟨p, hp, hps⟩
            exact ⟨p, by simp [splitlinesAux, hskip, hb, List.mem_cons, hp], hps⟩
        · rcases subOfCons hsub with h1 | h1
          · cases w with
            | nil => exact absurd rfl hne
            | cons w0 w' =>
                have hw0 : w0 = c := by
                  rcases h1 with ⟨v, hv⟩
                  simpa using congrArg List.head? hv
                have hw' : w' <+: cs := by
                  rcases h1 with ⟨v, hv⟩
                  exact ⟨v, by simpa using congrArg List.tail hv⟩
                rcases splitlinesAux_pref_cover cs w' (fun d hd => hw d (by simp [hd])) hw'
                  with ⟨hd2, tl2, heq2, hpref2⟩
                refine ⟨c :: hd2, ?_, ?_⟩
                · simp [splitlinesAux, hskip, hb, heq2, List.modifyHead]
                · rcases hpref2 with ⟨v, hv⟩
                  exact (show (w0 :: w') <+: c :: hd2 from ⟨v, by simp [hw0, hv]⟩).isInfix
          · rcases ih w hne hw h1 with ⟨p, hp, hps⟩
            rcases splitlinesAux_head cs with ⟨hd, tl, heq, _⟩
            rw [heq] at hp
            rcases List.mem_cons.mp hp with hp1 | hp1
            · exact ⟨c :: hd, by simp [splitlinesAux, hskip, hb, heq, List.modifyHead],
                hp1 ▸ subConsOf c hps⟩
            · exact ⟨p, by simp [splitlinesAux, hskip, hb, heq, List.modifyHead, hp1], hps⟩

/-- Chunks of `splitlinesPy` are chunks of `splitlinesAux`. -/
theorem splitlinesPy_subset {t : Str} {p : Str} (hp : p ∈ splitlinesPy t) :
    p ∈ splitlinesAux t := by
  unfold splitlinesPy at hp
  cases t with
  | nil => simp at hp
  | cons c cs =>
      rcases hgl : (splitlinesAux (c :: cs)).getLast? with _ | last
      · rw [hgl] at hp
        exact hp
      · rw [hgl] at hp
        cases last with
        | nil => exact List.dropLast_sublist _ |>.mem hp
        | cons x xs => exact hp

/-- Every line of `splitlinesPy` is an infix of the text. -/
theorem splitlinesPy_mem_sub {t : Str} {p : Str} (hp : p ∈ splitlinesPy t) :
    p <:+: t := splitlinesAux_mem_sub t p (splitlinesPy_subset hp)

/-- A non-empty boundary-free infix lies inside a single line of
`splitlinesPy`. -/
theorem splitlinesPy_cover {t w : Str} (hne : w ≠ [])
    (hw : ∀ c ∈ w, isLineBoundary c = false) (hsub : w <:+: t) :
    ∃ p ∈ splitlinesPy t, w <:+: p := by
  rcases splitlinesAux_cover t w hne hw hsub with ⟨p, hp, hps⟩
  have hpne : p ≠ [] := by
    intro h
    subst h
    exact hne (subOfNil hps)
  have htne : t ≠ [] := by
    intro h
    subst h
    exact hne (subOfNil hsub)
  refine ⟨p, ?_, hps⟩
  unfold splitlinesPy
  cases t with
  | nil => exact absurd rfl htne
  | cons c cs =>
      rcases hgl : (splitlinesAux (c :: cs)).getLast? with _ | last
      · exact hp
      · cases last with
        | nil =>
            have hlne : splitlinesAux (c :: cs) ≠ [] := by
              rcases splitlinesAux_head (c :: cs) with ⟨hd, tl, heq, _⟩
              simp [heq]
            have hgl2 : (splitlinesAux (c :: cs)).getLast hlne = [] :=
              (List.getLast?_eq_getLast _ hlne ▸ hgl : _) |> Option.some.inj
            rw [← List.dropLast_append_getLast hlne] at hp
            rcases List.mem_append.mp hp with h | h
            · exact h
            · rw [hgl2] at h
              simp at h
              exact absurd h hpne
        | cons x xs => exact hp

/-- An infix of a list is an infix of anything extending it on the left. -/
theorem subAppendLeft {q l : Str} (pre : Str) (h : q <:+: l) : q <:+: pre ++ l := by
  rcases h with ⟨u, v, huv⟩
  exact ⟨pre ++ u, v, by simp [← huv]⟩

/-- Every chunk produced by the sentence scanner is an infix of the pending
accumulator followed by the remaining text. -/
theorem sentSplitAux_sub : ∀ (cs : Str) (mode : Nat) (acc : Str),
    ∀ p ∈ sentSplitAux mode acc cs, p <:+: acc.reverse ++ cs := by
  intro cs
  induction cs with
  | nil =>
      intro mode acc p hp
      rcases mode with _ | mode
      · simp only [sentSplitAux, List.mem_singleton] at hp
        subst hp
        exact ⟨[], [], by simp⟩
      · simp only [sentSplitAux, List.mem_singleton] at hp
        subst hp
        exact ⟨[], acc.reverse ++ [], by simp⟩
  | cons c cs' ih =>
      intro mode acc p hp
      have hext : ∀ q : Str, q <:+: cs' → q <:+: acc.reverse ++ c :: cs' := by
        intro q hq
        rcases hq with ⟨u, v, huv⟩
        exact ⟨(acc.reverse ++ [c]) ++ u, v, by simp [← huv]⟩
      rcases mode with _ | mode
      · by_cases h1 : headPunct acc = true ∧ pyIsSpace c = true
        · simp only [sentSplitAux, if_pos h1, List.mem_cons] at hp
          rcases hp with hp | hp
          · subst hp
            exact ⟨[], c :: cs', by simp⟩
          · have := ih 1 [] p hp
            simp only [List.reverse_nil, List.nil_append] at this
            exact hext p this
        · by_cases h2 : c = '\n'
          · simp only [sentSplitAux, if_neg h1, if_pos h2, List.mem_cons] at hp
            rcases hp with hp | hp
            · subst hp
              exact ⟨[], c :: cs', by simp⟩
            · have := ih 2 [] p hp
              simp only [List.reverse_nil, List.nil_append] at this
              exact hext p this
          · simp only [sentSplitAux, if_neg h1, if_neg h2] at hp
            have := ih 0 (c :: acc) p hp
            simpa [List.append_assoc] using this
      · rcases mode with _ | mode
        · by_cases h1 : pyIsSpace c = true
          · simp only [sentSplitAux, if_pos h1] at hp
            have := ih 1 [] p hp
            simp only [List.reverse_nil, List.nil_append] at this
            exact hext p this
          · simp only [sentSplitAux, if_neg h1] at hp
            have := ih 0 [c] p hp
            simp only [List.reverse_cons, List.reverse_nil, List.nil_append] at this
            exact subAppendLeft acc.reverse (by simpa using this)
        · by_cases h1 : c = '\n'
          · simp only [sentSplitAux, if_pos h1] at hp
            have := ih 2 [] p hp
            simp only [List.reverse_nil, List.nil_append] at this
            exact hext p this
          · simp only [sentSplitAux, if_neg h1] at hp
            have := ih 0 [c] p hp
            simp only [List.reverse_cons, List.reverse_nil, List.nil_append] at this
            exact subAppendLeft acc.reverse (by simpa using this)

/-- Peeling one chunk off the stripping comprehension. -/
theorem stripParts_cons (x : Str) (l : List Str) :
    stripParts (x :: l) =
      if pyStrip x = [] then stripParts l else pyStrip x :: stripParts l := by
  simp only [stripParts, List.map_cons, List.filter_cons]
  by_cases h : pyStrip x = []
  · simp [h, List.isEmpty_iff]
  · simp [h, List.isEmpty_iff]

/-- Membership in the stripping comprehension. -/
theorem mem_stripParts {l : List Str} {q : Str} :
    q ∈ stripParts l ↔ (∃ p ∈ l, q = pyStrip p) ∧ q ≠ [] := by
  simp only [stripParts, List.mem_filter, List.mem_map, Bool.not_eq_true',
    List.isEmpty_iff, ← ne_eq]
  constructor
  · rintro ⟨⟨p, hp, hq⟩, hne⟩
    exact ⟨⟨p, hp, hq.symm⟩, by simpa using hne⟩
  · rintro ⟨⟨p, hp, hq⟩, hne⟩
    exact ⟨⟨p, hp, hq.symm⟩, by simpa using hne⟩

/-- Every sentence returned by `split_to_sentences` is a stripped infix of
the text. -/
theorem split_to_sentences_sub {t s : Str} (hs : s ∈ split_to_sentences t) :
    s <:+: t := by
  unfold split_to_sentences at hs
  by_cases h : stripParts (sentSplitAux 0 [] t) = []
  · rw [h] at hs
    simp only [if_true, List.mem_singleton] at hs
    subst hs
    exact pyStrip_sub t
  · simp only [if_neg h] at hs
    rcases mem_stripParts.mp hs with ⟨⟨p, hp, hq⟩, _⟩
    have := sentSplitAux_sub t 0 [] p hp
    simp only [List.reverse_nil, List.nil_append] at this
    exact hq ▸ (pyStrip_sub p).trans this

/-- Prepending pending characters to the head chunk of a chunk list. -/
def consHead (pre : Str) : List Str → List Str
  | [] => [pre]
  | h :: t => (pre ++ h) :: t

/-- A separator match starts at a position exactly when its first character
is a newline, or a carriage return directly followed by a newline. -/
theorem sepKind_ne_none_iff (c : Char) (cs : Str) :
    sepKind c cs ≠ none ↔ (c = '\n' ∨ (c = '\r' ∧ cs.head? = some '\n')) := by
  unfold sepKind
  split_ifs with h1 h2
  · simp only [ne_eq, reduceCtorEq, not_false_eq_true, true_iff]
    exact Or.inl h1.1
  · simp only [ne_eq, reduceCtorEq, not_false_eq_true, true_iff]
    exact h2
  · simp only [ne_eq, not_true_eq_false, false_iff]
    exact h2

/-- Only a newline can start the first alternative `\n{2,}`. -/
theorem sepKind_true_newline {c : Char} {cs : Str} (h : sepKind c cs = some true) :
    c = '\n' := by
  by_cases h1 : c = '\n'
  · exact h1
  · exfalso
    unfold sepKind at h
    split_ifs at h with h2 h3
    · exact h1 h2.1
    · simp at h

/-- Dropping an empty chunk from the stripping comprehension. -/
theorem stripParts_nil_cons (l : List Str) : stripParts ([] :: l) = stripParts l := by
  rw [stripParts_cons]
  simp [pyStrip]

/-- The regex split of `_PARAGRAPH_SEP_RE` agrees with the single-character
split after stripping and dropping blank chunks: the extra chunks produced
between two adjacent separator matches are all empty. -/
theorem reSplit_charSplit : ∀ (cs : Str) (mode : Nat) (acc : Str),
    stripParts (reSplitParaAux mode acc cs) =
      if mode = 0 then stripParts (consHead acc.reverse (charSplitPara cs))
      else stripParts (charSplitPara cs) := by
  intro cs
  induction cs with
  | nil =>
      intro mode acc
      rcases mode with _ | mode
      · simp [reSplitParaAux, charSplitPara, consHead]
      · simp [reSplitParaAux, charSplitPara, stripParts, pyStrip]
  | cons c cs' ih =>
      intro mode acc
      have hcharsep : ∀ (_ : c = '\n' ∨ (c = '\r' ∧ cs'.head? = some '\n')),
          charSplitPara (c :: cs') = [] :: charSplitPara cs' := by
        intro h
        simp [charSplitPara, h]
      have hcharnone : ∀ (_ : ¬(c = '\n' ∨ (c = '\r' ∧ cs'.head? = some '\n'))),
          charSplitPara (c :: cs') = (charSplitPara cs').modifyHead (c :: ·) := by
        intro h
        simp [charSplitPara, h]
      have ih0 : ∀ acc2 : Str, stripParts (reSplitParaAux 0 acc2 cs') =
          stripParts (consHead acc2.reverse (charSplitPara cs')) := by
        intro acc2
        rw [ih 0 acc2, if_pos rfl]
      have ih1 : stripParts (reSplitParaAux 1 [] cs') = stripParts (charSplitPara cs') := by
        rw [ih 1 [], if_neg (by omega)]
      have ih2 : stripParts (reSplitParaAux 2 [] cs') = stripParts (charSplitPara cs') := by
        rw [ih 2 [], if_neg (by omega)]
      rcases mode with _ | mode
      · rw [if_pos rfl]
        rcases hsk : sepKind c cs' with _ | b
        · have hcond : ¬(c = '\n' ∨ (c = '\r' ∧ cs'.head? = some '\n')) := by
            intro h
            exact (sepKind_ne_none_iff c cs').mpr h hsk
          have hred : reSplitParaAux 0 acc (c :: cs') = reSplitParaAux 0 (c :: acc) cs' := by
            simp [reSplitParaAux, hsk]
          rw [hred, ih0 (c :: acc), hcharnone hcond]
          rcases charSplitPara_head cs' with ⟨hd, tl, heq, _⟩
          simp [heq, consHead, List.modifyHead, List.append_assoc]
        · have hcond : c = '\n' ∨ (c = '\r' ∧ cs'.head? = some '\n') := by
            apply (sepKind_ne_none_iff c cs').mp
            simp [hsk]
          cases b with
          | true =>
              have hred : reSplitParaAux 0 acc (c :: cs') =
                  acc.reverse :: reSplitParaAux 1 [] cs' := by
                simp [reSplitParaAux, hsk]
              rw [hred, hcharsep hcond]
              show _ = stripParts (consHead acc.reverse ([] :: charSplitPara cs'))
              simp only [consHead, List.append_nil]
              rw [stripParts_cons, stripParts_cons, ih1]
          | false =>
              have hred : reSplitParaAux 0 acc (c :: cs') =
                  acc.reverse :: reSplitParaAux 2 [] cs' := by
                simp [reSplitParaAux, hsk]
              rw [hred, hcharsep hcond]
              show _ = stripParts (consHead acc.reverse ([] :: charSplitPara cs'))
              simp only [consHead, List.append_nil]
              rw [stripParts_cons, stripParts_cons, ih2]
      · rw [if_neg (by omega)]
        rcases mode with _ | mode
        · show stripParts (reSplitParaAux 1 acc (c :: cs')) = _
          by_cases hnl : c = '\n'
          · have hred : reSplitParaAux 1 acc (c :: cs') = reSplitParaAux 1 [] cs' := by
              simp [reSplitParaAux, hnl]
            rw [hred, ih1, hcharsep (Or.inl hnl), stripParts_nil_cons]
          · rcases hsk : sepKind c cs' with _ | b
            · have hcond : ¬(c = '\n' ∨ (c = '\r' ∧ cs'.head? = some '\n')) := by
                intro h
                exact (sepKind_ne_none_iff c cs').mpr h hsk
              have hred : reSplitParaAux 1 acc (c :: cs') = reSplitParaAux 0 [c] cs' := by
                simp [reSplitParaAux, hnl, hsk]
              rw [hred, ih0 [c], hcharnone hcond]
              rcases charSplitPara_head cs' with ⟨hd, tl, heq, _⟩
              simp [heq, consHead, List.modifyHead]
            · cases b with
              | true => exact absurd (sepKind_true_newline hsk) hnl
              | false =>
                  have hcond : c = '\n' ∨ (c = '\r' ∧ cs'.head? = some '\n') := by
                    apply (sepKind_ne_none_iff c cs').mp
                    simp [hsk]
                  have hred : reSplitParaAux 1 acc (c :: cs') =
                      [] :: reSplitParaAux 2 [] cs' := by
                    simp [reSplitParaAux, hnl, hsk]
                  rw [hred, stripParts_nil_cons, ih2, hcharsep hcond, stripParts_nil_cons]
        · show stripParts (reSplitParaAux (mode + 2) acc (c :: cs')) = _
          by_cases hcond : c = '\n' ∨ (c = '\r' ∧ cs'.head? = some '\n')
          · have hred : reSplitParaAux (mode + 2) acc (c :: cs') =
                reSplitParaAux 2 [] cs' := by
              simp [reSplitParaAux, hcond]
            rw [hred, ih2, hcharsep hcond, stripParts_nil_cons]
          · have hred : reSplitParaAux (mode + 2) acc (c :: cs') =
                reSplitParaAux 0 [c] cs' := by
              simp [reSplitParaAux, hcond]
            rw [hred, ih0 [c], hcharnone hcond]
            rcases charSplitPara_head cs' with ⟨hd, tl, heq, _⟩
            simp [heq, consHead, List.modifyHead]

/-- `str.strip()` written with Mathlib's right-dropping helper. -/
theorem pyStrip_eq (t : Str) :
    pyStrip t = List.rdropWhile pyIsSpace (t.dropWhile pyIsSpace) := rfl

/-- After dropping leading whitespace and trailing whitespace, no leading
whitespace remains. -/
theorem stripAux_fix (l : Str) :
    List.dropWhile pyIsSpace (List.rdropWhile pyIsSpace (l.dropWhile pyIsSpace)) =
      List.rdropWhile pyIsSpace (l.dropWhile pyIsSpace) := by
  rcases hA : l.dropWhile pyIsSpace with _ | ⟨a, A2⟩
  · simp [List.rdropWhile]
  · have hpa : pyIsSpace a = false := by
      have := List.head?_dropWhile_not pyIsSpace l
      rw [hA] at this
      exact this
    rcases hR : List.rdropWhile pyIsSpace (a :: A2) with _ | ⟨b, B2⟩
    · simp
    · have hpref : List.rdropWhile pyIsSpace (a :: A2) <+: a :: A2 :=
        List.rdropWhile_prefix pyIsSpace (a :: A2)
      rw [hR] at hpref
      have hb : b = a := by
        rcases hpref with ⟨u, hu⟩
        simpa using congrArg List.head? hu
      rw [List.dropWhile_cons, hb, hpa]
      simp

/-- Stripping is idempotent. -/
theorem pyStrip_idem (t : Str) : pyStrip (pyStrip t) = pyStrip t := by
  conv_lhs => rw [pyStrip_eq (pyStrip t), pyStrip_eq t]
  rw [stripAux_fix, List.rdropWhile_idempotent]
  exact (pyStrip_eq t).symm

/-- Unfolding `split_to_paragraphs`. -/
theorem split_to_paragraphs_def (t : Str) :
    split_to_paragraphs t =
      if (stripParts (reSplitParaAux 0 [] t)).length ≤ 1 then
        stripParts (splitlinesPy t)
      else stripParts (reSplitParaAux 0 [] t) := rfl

/-- The primary regex split of `split_to_paragraphs` equals the stripped
single-character split. -/
theorem primaryParts_eq (t : Str) :
    stripParts (reSplitParaAux 0 [] t) = stripParts (charSplitPara t) := by
  rw [reSplit_charSplit t 0 [], if_pos rfl]
  rcases charSplitPara_head t with ⟨hd, tl, heq, _⟩
  simp [heq, consHead]

/-- Every paragraph of `split_to_paragraphs` is non-empty, stripped, and an
infix of the text. -/
theorem split_to_paragraphs_facts {t p : Str} (hp : p ∈ split_to_paragraphs t) :
    p ≠ [] ∧ pyStrip p = p ∧ p <:+: t := by
  rw [split_to_paragraphs_def] at hp
  by_cases h : (stripParts (reSplitParaAux 0 [] t)).length ≤ 1
  · rw [if_pos h] at hp
    rcases mem_stripParts.mp hp with ⟨⟨q, hq, hpq⟩, hne⟩
    exact ⟨hne, by rw [hpq, pyStrip_idem],
      hpq ▸ (pyStrip_sub q).trans (splitlinesPy_mem_sub hq)⟩
  · rw [if_neg h, primaryParts_eq] at hp
    rcases mem_stripParts.mp hp with ⟨⟨q, hq, hpq⟩, hne⟩
    exact ⟨hne, by rw [hpq, pyStrip_idem],
      hpq ▸ (pyStrip_sub q).trans (charSplitPara_mem_sub t q hq)⟩

/-- Every sentence of `split_to_sentences` is stripped. -/
theorem split_to_sentences_stripped {t s : Str} (hs : s ∈ split_to_sentences t) :
    pyStrip s = s := by
  unfold split_to_sentences at hs
  by_cases h : stripParts (sentSplitAux 0 [] t) = []
  · rw [h] at hs
    simp only [if_true, List.mem_singleton] at hs
    rw [hs, pyStrip_idem]
  · simp only [if_neg h] at hs
    rcases mem_stripParts.mp hs with ⟨⟨q, _, hpq⟩, _⟩
    rw [hpq, pyStrip_idem]

/-- Extracting the region of a filtered prefix inside the original list. -/
theorem filterPrefExtract {keep : Char → Bool} : ∀ {l m : Str},
    m <+: l.filter keep →
    ∃ w, w <+: l ∧ w.filter keep = m ∧ ∀ c ∈ w, keep c = true → c ∈ m := by
  intro l
  induction l with
  | nil =>
      intro m hm
      have := List.prefix_nil.mp (by simpa using hm)
      subst this
      exact ⟨[], List.nil_prefix, rfl, by simp⟩
  | cons c l' ih =>
      intro m hm
      by_cases hk : keep c = true
      · rw [List.filter_cons_of_pos hk] at hm
        cases m with
        | nil => exact ⟨[], List.nil_prefix, rfl, by simp⟩
        | cons m0 m' =>
            have hm0 : m0 = c := by
              rcases hm with ⟨v, hv⟩
              simpa using congrArg List.head? hv
            have hm' : m' <+: l'.filter keep := by
              rcases hm with ⟨v, hv⟩
              exact ⟨v, by simpa using congrArg List.tail hv⟩
            rcases ih hm' with ⟨w', hw'p, hw'f, hw'c⟩
            refine ⟨c :: w', ?_, ?_, ?_⟩
            · rcases hw'p with ⟨v, hv⟩
              exact ⟨v, by simp [hv]⟩
            · rw [List.filter_cons_of_pos hk, hw'f, hm0]
            · intro d hd _
              rcases List.mem_cons.mp hd with hd1 | hd1
              · simp [hd1, hm0]
              · rename_i hkd
                exact List.mem_cons_of_mem m0 (hw'c d hd1 hkd)
      · rw [List.filter_cons_of_neg (by simpa using hk)] at hm
        rcases ih hm with ⟨w', hw'p, hw'f, hw'c⟩
        refine ⟨c :: w', ?_, ?_, ?_⟩
        · rcases hw'p with ⟨v, hv⟩
          exact ⟨v, by simp [hv]⟩
        · rw [List.filter_cons_of_neg (by simpa using hk), hw'f]
        · intro d hd hkd
          rcases List.mem_cons.mp hd with hd1 | hd1
          · exact absurd (hd1 ▸ hkd) (by simpa using hk)
          · exact hw'c d hd1 hkd

/-- Extracting the region of a filtered infix inside the original list. -/
theorem filterSubExtract {keep : Char → Bool} : ∀ {l m : Str},
    m <:+: l.filter keep →
    ∃ w, w <:+: l ∧ w.filter keep = m ∧ ∀ c ∈ w, keep c = true → c ∈ m := by
  intro l
  induction l with
  | nil =>
      intro m hm
      have := subOfNil (by simpa using hm)
      subst this
      exact ⟨[], ⟨[], [], rfl⟩, rfl, by simp⟩
  | cons c l' ih =>
      intro m hm
      by_cases hk : keep c = true
      · rw [List.filter_cons_of_pos hk] at hm
        rcases subOfCons hm with h1 | h1
        · have h2 : m <+: (c :: l').filter keep := by
            rw [List.filter_cons_of_pos hk]
            exact h1
          rcases filterPrefExtract h2 with ⟨w, hw1, hw2, hw3⟩
          exact ⟨w, hw1.isInfix, hw2, hw3⟩
        · rcases ih h1 with ⟨w, hw1, hw2, hw3⟩
          exact ⟨w, subConsOf c hw1, hw2, hw3⟩
      · rw [List.filter_cons_of_neg (by simpa using hk)] at hm
        rcases ih hm with ⟨w, hw1, hw2, hw3⟩
        exact ⟨w, subConsOf c hw1, hw2, hw3⟩

/-- Diacritics are not whitespace. -/
theorem niqqud_not_ws {c : Char} (h : isNiqqud c = true) : pyIsSpace c = false := by
  simp only [isNiqqud, decide_eq_true_eq] at h
  simp only [pyIsSpace, decide_eq_false_iff_not]
  omega

/-- Diacritics are not line boundaries. -/
theorem niqqud_not_boundary {c : Char} (h : isNiqqud c = true) :
    isLineBoundary c = false := by
  simp only [isNiqqud, decide_eq_true_eq] at h
  simp only [isLineBoundary, decide_eq_false_iff_not]
  omega

/-- Line boundaries are whitespace. -/
theorem boundary_ws {c : Char} (h : isLineBoundary c = true) : pyIsSpace c = true := by
  simp only [isLineBoundary, decide_eq_true_eq] at h
  simp only [pyIsSpace, decide_eq_true_eq]
  omega

/-- Core covering lemma: a non-empty keyword (no whitespace, no diacritics)
that occurs in the diacritics-stripped text also occurs in the normalization
of some paragraph returned by `split_to_paragraphs`. -/
theorem kw_para_cover {t kw : Str} (hne : kw ≠ [])
    (hgood : ∀ c ∈ kw, pyIsSpace c = false ∧ isNiqqud c = false)
    (hsub : kw <:+: removeNiqqud t) :
    ∃ p ∈ split_to_paragraphs t, kw <:+: normalize_hebrew p := by
  rcases @filterSubExtract (fun c => !isNiqqud c) t kw hsub with ⟨w, hwt, hwf, hwc⟩
  have hwchars : ∀ c ∈ w, isNiqqud c = true ∨ c ∈ kw := by
    intro c hc
    by_cases hn : isNiqqud c = true
    · exact Or.inl hn
    · exact Or.inr (hwc c hc (by simp [hn]))
  have hwws : ∀ c ∈ w, pyIsSpace c = false := by
    intro c hc
    rcases hwchars c hc with h | h
    · exact niqqud_not_ws h
    · exact (hgood c h).1
  have hwb : ∀ c ∈ w, isLineBoundary c = false := by
    intro c hc
    by_cases hb : isLineBoundary c = true
    · have h1 := boundary_ws hb
      have h2 := hwws c hc
      rw [h1] at h2
      exact absurd h2 (by simp)
    · simpa using hb
  have hwnl : ∀ c ∈ w, ¬(c = '\n' ∨ c = '\r') := by
    intro c hc hor
    have h2 := hwws c hc
    rcases hor with h | h
    · rw [h] at h2
      exact absurd h2 (by decide)
    · rw [h] at h2
      exact absurd h2 (by decide)
  have hwne : w ≠ [] := by
    intro h
    rw [h] at hwf
    simp at hwf
    exact hne hwf
  have hkwkw : ∀ c ∈ kw, ¬(c = ' ' ∨ c = '\t') := by
    intro c hc hor
    have h2 := (hgood c hc).1
    rcases hor with h | h
    · rw [h] at h2
      exact absurd h2 (by decide)
    · rw [h] at h2
      exact absurd h2 (by decide)
  -- From an occurrence of `w` inside a raw chunk `q` of the text, build the
  -- occurrence of `kw` inside the normalization of the stripped chunk.
  have chain : ∀ q : Str, w <:+: q → kw <:+: normalize_hebrew (pyStrip q) := by
    intro q hwq
    have h1 : w <:+: pyStrip q := subPyStrip hwws hwne hwq
    have h2 : kw <:+: removeNiqqud (pyStrip q) := by
      have := subFilter (fun c => !isNiqqud c) h1
      rw [hwf] at this
      exact this
    have h3 : kw <:+: collapseAux false (removeNiqqud (pyStrip q)) :=
      collapseSub hkwkw _ false h2
    have h4 : ∀ c ∈ kw, pyIsSpace c = false := fun c hc => (hgood c hc).1
    exact subPyStrip h4 hne h3
  rw [split_to_paragraphs_def]
  by_cases h : (stripParts (reSplitParaAux 0 [] t)).length ≤ 1
  · rw [if_pos h]
    rcases splitlinesPy_cover hwne hwb hwt with ⟨q, hq, hwq⟩
    have hqne : pyStrip q ≠ [] := by
      intro hnil
      have := subPyStrip hwws hwne hwq
      rw [hnil] at this
      exact hwne (subOfNil this)
    exact ⟨pyStrip q, mem_stripParts.mpr ⟨⟨q, hq, rfl⟩, hqne⟩, chain q hwq⟩
  · rw [if_neg h, primaryParts_eq]
    rcases charSplitPara_cover t w hwne hwnl hwt with ⟨q, hq, hwq⟩
    have hqne : pyStrip q ≠ [] := by
      intro hnil
      have := subPyStrip hwws hwne hwq
      rw [hnil] at this
      exact hwne (subOfNil this)
    exact ⟨pyStrip q, mem_stripParts.mpr ⟨⟨q, hq, rfl⟩, hqne⟩, chain q hwq⟩

/-- Characters of tokens produced by the tokenizer come from the pending
accumulator or are non-separator characters of the input. -/
theorem tokenizeAux_chars : ∀ (s : Str) (mode : Bool) (acc : Str) (tok : Str),
    tok ∈ tokenizeAux mode acc s → ∀ c ∈ tok,
    c ∈ acc ∨ (c ∈ s ∧ isTokenSep c = false) := by
  intro s
  induction s with
  | nil =>
      intro mode acc tok htok c hc
      cases mode with
      | false =>
          simp only [tokenizeAux, List.mem_singleton] at htok
          subst htok
          exact Or.inl (by simpa using hc)
      | true =>
          simp only [tokenizeAux, List.mem_singleton] at htok
          subst htok
          simp at hc
  | cons c0 s' ih =>
      intro mode acc tok htok c hc
      cases mode with
      | false =>
          by_cases hk : isTokenSep c0 = true
          · simp only [tokenizeAux, if_pos hk, List.mem_cons] at htok
            rcases htok with htok | htok
            · subst htok
              exact Or.inl (by simpa using hc)
            · rcases ih true [] tok htok c hc with h | ⟨h1, h2⟩
              · simp at h
              · exact Or.inr ⟨List.mem_cons_of_mem c0 h1, h2⟩
          · simp only [tokenizeAux, if_neg hk] at htok
            rcases ih false (c0 :: acc) tok htok c hc with h | ⟨h1, h2⟩
            · rcases List.mem_cons.mp h with h3 | h3
              · exact Or.inr ⟨by simp [h3], h3 ▸ (by simpa using hk)⟩
              · exact Or.inl h3
            · exact Or.inr ⟨List.mem_cons_of_mem c0 h1, h2⟩
      | true =>
          by_cases hk : isTokenSep c0 = true
          · simp only [tokenizeAux, if_pos hk] at htok
            rcases ih true [] tok htok c hc with h | ⟨h1, h2⟩
            · simp at h
            · exact Or.inr ⟨List.mem_cons_of_mem c0 h1, h2⟩
          · simp only [tokenizeAux, if_neg hk] at htok
            rcases ih false [c0] tok htok c hc with h | ⟨h1, h2⟩
            · rcases List.mem_singleton.mp h with h3
              · exact Or.inr ⟨by simp [h3], h3 ▸ (by simpa using hk)⟩
            · exact Or.inr ⟨List.mem_cons_of_mem c0 h1, h2⟩

/-- Characters of the normalized text carry no diacritics. -/
theorem normalize_no_niqqud {q : Str} {c : Char} (hc : c ∈ normalize_hebrew q) :
    isNiqqud c = false := by
  unfold normalize_hebrew at hc
  have h1 := mem_pyStrip hc
  rcases memCollapse h1 with h2 | h2
  · simpa using (List.mem_filter.mp h2).2
  · subst h2
    decide

/-- Whitespace characters are token separators. -/
theorem ws_isTokenSep {c : Char} (h : pyIsSpace c = true) : isTokenSep c = true := by
  simp [isTokenSep, h]

/-- Elements surviving first-occurrence de-duplication come from the list. -/
theorem dedupFirst_subset : ∀ (seen l : List Str) (x : Str),
    x ∈ dedupFirst seen l → x ∈ l := by
  intro seen l
  induction l generalizing seen with
  | nil => intro x hx; simp [dedupFirst] at hx
  | cons t ts ih =>
      intro x hx
      by_cases ht : t ∈ seen
      · simp only [dedupFirst, if_pos ht] at hx
        exact List.mem_cons_of_mem t (ih seen x hx)
      · simp only [dedupFirst, if_neg ht, List.mem_cons] at hx
        rcases hx with hx | hx
        · exact hx ▸ List.mem_cons_self t ts
        · exact List.mem_cons_of_mem t (ih (t :: seen) x hx)

/-- First-occurrence de-duplication removes duplicates and whatever was
already seen. -/
theorem dedupFirst_nodup : ∀ (seen l : List Str),
    (dedupFirst seen l).Nodup ∧ ∀ x ∈ dedupFirst seen l, x ∉ seen := by
  intro seen l
  induction l generalizing seen with
  | nil => exact ⟨List.nodup_nil, by simp [dedupFirst]⟩
  | cons t ts ih =>
      by_cases ht : t ∈ seen
      · rcases ih seen with ⟨h1, h2⟩
        exact ⟨by simpa [dedupFirst, if_pos ht] using h1,
          by simpa [dedupFirst, if_pos ht] using h2⟩
      · rcases ih (t :: seen) with ⟨h1, h2⟩
        constructor
        · simp only [dedupFirst, if_neg ht]
          refine List.Nodup.cons ?_ h1
          intro hmem
          exact (h2 t hmem) (List.mem_cons_self t seen)
        · intro x hx
          simp only [dedupFirst, if_neg ht, List.mem_cons] at hx
          rcases hx with hx | hx
          · exact hx ▸ ht
          · intro hxs
            exact (h2 x hx) (List.mem_cons_of_mem t hxs)

/-- Membership after first-occurrence de-duplication. -/
theorem dedupFirst_mem : ∀ (seen l : List Str) (x : Str),
    x ∈ dedupFirst seen l ↔ x ∈ l ∧ x ∉ seen := by
  intro seen l
  induction l generalizing seen with
  | nil => intro x; simp [dedupFirst]
  | cons t ts ih =>
      intro x
      by_cases ht : t ∈ seen
      · rw [show dedupFirst seen (t :: ts) = dedupFirst seen ts by
          simp [dedupFirst, if_pos ht], ih seen x]
        constructor
        · rintro ⟨h1, h2⟩
          exact ⟨List.mem_cons_of_mem t h1, h2⟩
        · rintro ⟨h1, h2⟩
          rcases List.mem_cons.mp h1 with h3 | h3
          · exact absurd (h3 ▸ ht) h2
          · exact ⟨h3, h2⟩
      · rw [show dedupFirst seen (t :: ts) = t :: dedupFirst (t :: seen) ts by
          simp [dedupFirst, if_neg ht]]
        simp only [List.mem_cons, ih (t :: seen) x]
        constructor
        · rintro (h1 | ⟨h1, h2⟩)
          · exact ⟨Or.inl h1, h1 ▸ ht⟩
          · exact ⟨Or.inr h1, fun hx => h2 (Or.inr hx)⟩
        · rintro ⟨h1 | h1, h2⟩
          · exact Or.inl h1
          · by_cases hxt : x = t
            · exact Or.inl hxt
            · refine Or.inr ⟨h1, ?_⟩
              intro hx
              rcases hx with h4 | h4
              · exact hxt h4
              · exact h2 h4

/-- Every extracted keyword is non-empty and consists of characters that are
neither whitespace nor diacritics. -/
theorem keywords_good {q : Str} {n : Nat} :
    ∀ kw ∈ keywords_from_query q n,
    kw ≠ [] ∧ ∀ c ∈ kw, pyIsSpace c = false ∧ isNiqqud c = false := by
  intro kw hkw
  unfold keywords_from_query at hkw
  have h1 := dedupFirst_subset _ _ _ hkw
  rcases List.mem_filter.mp h1 with ⟨h2, h3⟩
  simp only [Bool.and_eq_true, Bool.not_eq_true'] at h3
  obtain ⟨⟨hne, _⟩, _⟩ := h3
  rw [show (List.isEmpty kw = false) ↔ kw ≠ [] from by cases kw <;> simp] at hne
  refine ⟨hne, ?_⟩
  intro c hc
  rcases tokenizeAux_chars _ false [] kw h2 c hc with h | ⟨h4, h5⟩
  · simp at h
  · constructor
    · by_cases hws : pyIsSpace c = true
      · exact absurd (ws_isTokenSep hws) (by simp [h5])
      · simpa using hws
    · exact normalize_no_niqqud h4

/-- The sentence-granularity retry of `best_snippet_for_query_in_doc` is
unreachable with a positive score: whenever every paragraph scores zero,
every sentence scores zero as well, because any keyword occurrence inside a
sentence lies inside some paragraph. -/
theorem dead_sentences {kws : List Str} {t : Str}
    (hkws : ∀ kw ∈ kws, kw ≠ [] ∧ ∀ c ∈ kw, pyIsSpace c = false ∧ isNiqqud c = false)
    (hzero : ∀ p ∈ split_to_paragraphs t, match_score (normalize_hebrew p) kws = 0) :
    ∀ s ∈ split_to_sentences t, match_score (normalize_hebrew s) kws = 0 := by
  intro s hs
  rw [match_score_eq_zero]
  intro kw hkw
  rcases hkws kw hkw with ⟨hne, hgood⟩
  refine Or.inr ?_
  intro hsub
  have hkwst : ∀ c ∈ kw, ¬(c = ' ' ∨ c = '\t') := by
    intro c hc hor
    have h2 := (hgood c hc).1
    rcases hor with h | h
    · rw [h] at h2
      exact absurd h2 (by decide)
    · rw [h] at h2
      exact absurd h2 (by decide)
  have h1 : kw <:+: collapseAux false (removeNiqqud s) := by
    have hss : pyStrip (collapseAux false (removeNiqqud s)) <:+:
        collapseAux false (removeNiqqud s) := pyStrip_sub _
    exact (show kw <:+: pyStrip (collapseAux false (removeNiqqud s)) from hsub).trans hss
  have h2 : kw <:+: removeNiqqud s := collapseSubDown hkwst hne _ false h1
  have h3 : s <:+: t := split_to_sentences_sub hs
  have h4 : removeNiqqud s <:+: removeNiqqud t := subFilter _ h3
  have h5 : kw <:+: removeNiqqud t := h2.trans h4
  rcases kw_para_cover hne hgood h5 with ⟨p, hp, hinf⟩
  have hscore := hzero p hp
  rw [match_score_eq_zero] at hscore
  rcases hscore kw hkw with h6 | h6
  · exact hne h6
  · exact h6 hinf

theorem match_score_nil_kws (tn : Str) : match_score tn [] = 0 := rfl

/-- A positive maximal score needs at least one keyword. -/
theorem specMax_pos_kws_ne {kws : List Str} {parts : List Str}
    (h : 0 < specMaxScore kws parts) : kws ≠ [] := by
  intro hk
  subst hk
  have h2 : specMaxScore ([] : List Str) parts = 0 :=
    specMaxScore_eq_zero.mpr (fun p _ => match_score_nil_kws (normalize_hebrew p))
  omega

/-- A segment with a positive score is non-empty. -/
theorem score_pos_ne_nil {kws : List Str} {raw : Str}
    (h : 0 < match_score (normalize_hebrew raw) kws) : raw ≠ [] := by
  intro hn
  subst hn
  rcases match_score_pos.mp h with ⟨kw, _, hne, hsub⟩
  exact hne (subOfNil (by exact hsub))

/-- An all-whitespace string strips to nothing, and conversely. -/
theorem pyStrip_nil_all_ws {t : Str} (h : pyStrip t = []) :
    ∀ c ∈ t, pyIsSpace c = true := by
  intro c hc
  rw [pyStrip_eq] at h
  have h2 : ∀ x ∈ t.dropWhile pyIsSpace, pyIsSpace x = true :=
    List.rdropWhile_eq_nil_iff.mp h
  have hsplit : t.takeWhile pyIsSpace ++ t.dropWhile pyIsSpace = t :=
    List.takeWhile_append_dropWhile pyIsSpace t
  rw [← hsplit] at hc
  rcases List.mem_append.mp hc with h3 | h3
  · exact List.mem_takeWhile_imp h3
  · exact h2 c h3

/-- A segment with a positive score does not strip to the empty string. -/
theorem strip_ne_nil_of_score {kws : List Str} {raw : Str}
    (h : 0 < match_score (normalize_hebrew raw) kws) : pyStrip raw ≠ [] := by
  intro hn
  have hall := pyStrip_nil_all_ws hn
  have hz := normalizeOfAllWs hall
  rcases match_score_pos.mp h with ⟨kw, _, hne, hsub⟩
  rw [hz] at hsub
  exact hne (subOfNil hsub)

/-- The core returns nothing exactly when both granularities have maximal
score zero (keyword-free queries included, since all scores are then zero). -/
theorem core_none_iff (q : Str) (d : CriteriaDocument) :
    best_snippet_core q d = none ↔
      (specMaxScore (keywords_from_query q) (split_to_paragraphs d.content) = 0 ∧
       specMaxScore (keywords_from_query q) (split_to_sentences d.content) = 0) := by
  simp only [best_snippet_core]
  by_cases hk : keywords_from_query q = []
  · rw [if_pos hk]
    simp only [true_iff]
    constructor <;>
      · rw [specMaxScore_eq_zero]
        intro p _
        rw [hk]
        exact match_score_nil_kws _
  · rw [if_neg hk]
    by_cases hp : specMaxScore (keywords_from_query q) (split_to_paragraphs d.content) = 0
    · have hpr : scanBest (keywords_from_query q) (split_to_paragraphs d.content) none 0 =
          (none, 0) := scanBest_stay (by omega)
      rw [hpr]
      simp only [if_pos rfl]
      by_cases hs : specMaxScore (keywords_from_query q) (split_to_sentences d.content) = 0
      · have hsr : scanBest (keywords_from_query q) (split_to_sentences d.content) none 0 =
            (none, 0) := scanBest_stay (by omega)
        rw [hsr]
        simp [hp, hs]
      · obtain ⟨raw, hsr, hfa⟩ := @scanBest_argmax (keywords_from_query q)
          (split_to_sentences d.content) none 0 (by omega)
        rw [hsr]
        rcases hfa with ⟨i, hi, hget, hsc, _⟩
        have hraw : raw ≠ [] := score_pos_ne_nil (by rw [hsc]; omega)
        simp [hs, if_neg hraw, hp]
    · obtain ⟨raw, hpr, hfa⟩ := @scanBest_argmax (keywords_from_query q)
        (split_to_paragraphs d.content) none 0 (by omega)
      rw [hpr]
      rcases hfa with ⟨i, hi, hget, hsc, _⟩
      have hraw : raw ≠ [] := score_pos_ne_nil (by rw [hsc]; omega)
      simp [hp, if_neg hraw]

/-- When some paragraph scores positively, the core returns the first
maximal-score paragraph, with the windowed citation fallback. -/
theorem core_some_para {q : Str} {d : CriteriaDocument}
    (hp : 0 < specMaxScore (keywords_from_query q) (split_to_paragraphs d.content)) :
    ∃ raw, FirstArgmax (keywords_from_query q) (split_to_paragraphs d.content) raw
        (specMaxScore (keywords_from_query q) (split_to_paragraphs d.content)) ∧
      best_snippet_core q d = some (raw,
        if extract_section_ref raw = none then windowRef d.content raw
        else extract_section_ref raw) := by
  obtain ⟨raw, hpr, hfa⟩ := @scanBest_argmax (keywords_from_query q)
    (split_to_paragraphs d.content) none 0 hp
  refine ⟨raw, hfa, ?_⟩
  have hk : keywords_from_query q ≠ [] := specMax_pos_kws_ne hp
  have hsc : match_score (normalize_hebrew raw) (keywords_from_query q) =
      specMaxScore (keywords_from_query q) (split_to_paragraphs d.content) := by
    rcases hfa with ⟨i, hi, hget, hsc, _⟩
    exact hsc
  have hraw : raw ≠ [] := score_pos_ne_nil (by rw [hsc]; omega)
  simp only [best_snippet_core, if_neg hk, hpr]
  rw [if_neg (by omega : ¬(raw, specMaxScore (keywords_from_query q)
    (split_to_paragraphs d.content)).2 = 0)]
  rw [if_neg (show ¬((none : Option Str), specMaxScore (keywords_from_query q)
    (split_to_paragraphs d.content)).2 = 0 by simp only []; omega)]
  rw [if_neg hraw]
  by_cases href : extract_section_ref raw = none
  · rw [if_pos ⟨href, by simp⟩, if_pos href]
  · rw [if_neg (fun hand => href hand.1), if_neg href]

/-- When no paragraph scores positively but some sentence does, the core
returns the first maximal-score sentence, with no windowed fallback. -/
theorem core_some_sent {q : Str} {d : CriteriaDocument}
    (hp : specMaxScore (keywords_from_query q) (split_to_paragraphs d.content) = 0)
    (hs : 0 < specMaxScore (keywords_from_query q) (split_to_sentences d.content)) :
    ∃ raw, FirstArgmax (keywords_from_query q) (split_to_sentences d.content) raw
        (specMaxScore (keywords_from_query q) (split_to_sentences d.content)) ∧
      best_snippet_core q d = some (raw, extract_section_ref raw) := by
  obtain ⟨raw, hsr, hfa⟩ := @scanBest_argmax (keywords_from_query q)
    (split_to_sentences d.content) none 0 hs
  refine ⟨raw, hfa, ?_⟩
  have hk : keywords_from_query q ≠ [] := specMax_pos_kws_ne hs
  have hsc : match_score (normalize_hebrew raw) (keywords_from_query q) =
      specMaxScore (keywords_from_query q) (split_to_sentences d.content) := by
    rcases hfa with ⟨i, hi, hget, hsc, _⟩
    exact hsc
  have hraw : raw ≠ [] := score_pos_ne_nil (by rw [hsc]; omega)
  have hpr : scanBest (keywords_from_query q) (split_to_paragraphs d.content) none 0 =
      (none, 0) := scanBest_stay (by omega)
  simp only [best_snippet_core, if_neg hk, hpr, if_true, hsr]
  rw [if_neg (by omega : ¬ specMaxScore (keywords_from_query q)
    (split_to_sentences d.content) = 0)]
  show (if raw = [] then none
    else some (raw,
      if extract_section_ref raw = none ∧ (none : Option Str) ≠ none then
        windowRef d.content raw
      else extract_section_ref raw)) = _
  rw [if_neg hraw]
  rw [if_neg (show ¬(extract_section_ref raw = none ∧ (none : Option Str) ≠ none) by
    simp)]

/-- First-occurrence index of a string in a list. -/
def firstPos : List Str → Str → Nat
  | [], _ => 0
  | t :: ts, x => if t = x then 0 else firstPos ts x + 1

/-- De-duplication yields a sublist (order preserved). -/
theorem dedupFirst_sublist : ∀ (seen l : List Str), (dedupFirst seen l).Sublist l := by
  intro seen l
  induction l generalizing seen with
  | nil => simp [dedupFirst]
  | cons t ts ih =>
      by_cases ht : t ∈ seen
      · rw [show dedupFirst seen (t :: ts) = dedupFirst seen ts by simp [dedupFirst, ht]]
        exact (ih seen).cons t
      · rw [show dedupFirst seen (t :: ts) = t :: dedupFirst (t :: seen) ts by
          simp [dedupFirst, ht]]
        exact (ih (t :: seen)).cons₂ t

/-- Two strings kept by de-duplication, in order, have their first
occurrences in the same order. -/
theorem dedupFirst_pairOrder : ∀ (l seen : List Str) (a b : Str),
    ([a, b] : List Str).Sublist (dedupFirst seen l) → firstPos l a < firstPos l b := by
  intro l
  induction l with
  | nil =>
      intro seen a b h
      rw [show dedupFirst seen [] = [] from rfl] at h
      simp at h
  | cons t ts ih =>
      intro seen a b h
      have hmem : a ∈ dedupFirst seen (t :: ts) ∧ b ∈ dedupFirst seen (t :: ts) :=
        ⟨h.subset (by simp), h.subset (by simp)⟩
      by_cases ht : t ∈ seen
      · rw [show dedupFirst seen (t :: ts) = dedupFirst seen ts by
          simp [dedupFirst, ht]] at h hmem
        have hna : a ∉ seen := (dedupFirst_nodup seen ts).2 a hmem.1
        have hnb : b ∉ seen := (dedupFirst_nodup seen ts).2 b hmem.2
        have hat : ¬(t = a) := fun he => hna (he ▸ ht)
        have hbt : ¬(t = b) := fun he => hnb (he ▸ ht)
        simp only [firstPos, if_neg hat, if_neg hbt]
        have := ih seen a b h
        omega
      · rw [show dedupFirst seen (t :: ts) = t :: dedupFirst (t :: seen) ts by
          simp [dedupFirst, ht]] at h
        cases h with
        | cons _ h2 =>
            have hma : a ∈ dedupFirst (t :: seen) ts := h2.subset (by simp)
            have hmb : b ∈ dedupFirst (t :: seen) ts := h2.subset (by simp)
            have hna := (dedupFirst_nodup (t :: seen) ts).2 a hma
            have hnb := (dedupFirst_nodup (t :: seen) ts).2 b hmb
            have hat : ¬(t = a) := fun he => hna (he ▸ List.mem_cons_self t seen)
            have hbt : ¬(t = b) := fun he => hnb (he ▸ List.mem_cons_self t seen)
            simp only [firstPos, if_neg hat, if_neg hbt]
            have := ih (t :: seen) a b h2
            omega
        | cons₂ _ h2 =>
            have hmb : b ∈ dedupFirst (t :: seen) ts := h2.subset (by simp)
            have hnb := (dedupFirst_nodup (t :: seen) ts).2 b hmb
            have hbt : ¬(t = b) := fun he => hnb (he ▸ List.mem_cons_self t seen)
            simp only [firstPos, if_pos rfl, if_neg hbt, if_true]
            omega

/-- Spec-side definition: the token list of the normalized query after the
length, emptiness and stop-word filters, before de-duplication. -/
def kwFilteredTokens (q : Str) (min_len : Nat) : List Str :=
  (tokenizeAux false [] (normalize_hebrew q)).filter
    (fun t => !t.isEmpty && decide (min_len ≤ t.length) && !decide (t ∈ heStopwords))

theorem keywords_eq_dedup (q : Str) (n : Nat) :
    keywords_from_query q n = dedupFirst [] (kwFilteredTokens q n) := rfl

/-- C7: for every query string `q`, `keywords_from_query(q, min_len=2)`
returns the tokens of the normalized query (tokenized on whitespace and the
fixed punctuation/separator characters) with tokens shorter than 2 dropped,
stop-words dropped, and duplicates removed preserving first-occurrence
order; in particular `keywords_from_query "גיל גיל בדיקה"` equals
`["גיל", "בדיקה"]`. -/
theorem claim_C7 (q : Str) :
    (keywords_from_query q 2).Nodup ∧
    (∀ x, x ∈ keywords_from_query q 2 ↔
      x ∈ tokenizeAux false [] (normalize_hebrew q) ∧
        x ≠ [] ∧ 2 ≤ x.length ∧ x ∉ heStopwords) ∧
    (keywords_from_query q 2).Sublist (kwFilteredTokens q 2) ∧
    (∀ a b, ([a, b] : List Str).Sublist (keywords_from_query q 2) →
      firstPos (kwFilteredTokens q 2) a < firstPos (kwFilteredTokens q 2) b) ∧
    keywords_from_query ("גיל גיל בדיקה".data) 2 = ["גיל".data, "בדיקה".data] := by
  refine ⟨?_, ?_, ?_, ?_, by decide⟩
  · rw [keywords_eq_dedup]
    exact (dedupFirst_nodup [] (kwFilteredTokens q 2)).1
  · intro x
    rw [keywords_eq_dedup, dedupFirst_mem]
    unfold kwFilteredTokens
    rw [List.mem_filter]
    have hbr : ∀ y : Str, (List.isEmpty y = false) ↔ y ≠ [] := by
      intro y
      cases y <;> simp
    simp only [Bool.and_eq_true, Bool.not_eq_true', hbr,
      decide_eq_true_eq, decide_eq_false_iff_not, List.not_mem_nil,
      not_false_eq_true, and_true]
    tauto
  · rw [keywords_eq_dedup]
    exact dedupFirst_sublist [] (kwFilteredTokens q 2)
  · intro a b h
    rw [keywords_eq_dedup] at h
    exact dedupFirst_pairOrder (kwFilteredTokens q 2) [] a b h

/-- Witness for C7 at the concrete query "גיל של בדיקה": the keyword list is
duplicate-free and the two surviving keywords keep first-occurrence order. -/
theorem claim_C7_witness :
    (keywords_from_query ("גיל של בדיקה".data) 2).Nodup ∧
    firstPos (kwFilteredTokens ("גיל של בדיקה".data) 2) ("גיל".data) <
      firstPos (kwFilteredTokens ("גיל של בדיקה".data) 2) ("בדיקה".data) ∧
    keywords_from_query ("גיל גיל בדיקה".data) 2 = ["גיל".data, "בדיקה".data] :=
  ⟨(claim_C7 ("גיל של בדיקה".data)).1,
   (claim_C7 ("גיל של בדיקה".data)).2.2.2.1 ("גיל".data) ("בדיקה".data) (by decide),
   (claim_C7 ("גיל של בדיקה".data)).2.2.2.2⟩

/-- Document construction fails exactly when some pair has a blank field. -/
theorem buildDocs_error_iff (dps : List (Str × Str)) :
    (∃ e, buildDocs dps = Except.error e) ↔
      ∃ p ∈ dps, pyStrip p.1 = [] ∨ pyStrip p.2 = [] := by
  induction dps with
  | nil =>
      constructor
      · rintro ⟨e, he⟩
        exact Except.noConfusion he
      · rintro ⟨p, hp, _⟩
        simp at hp
  | cons p ps ih =>
      by_cases hbad : pyStrip p.1 = [] ∨ pyStrip p.2 = []
      · constructor
        · intro _
          exact ⟨p, by simp, hbad⟩
        · intro _
          refine ⟨"שדה מחרוזת לא יכול להיות ריק.", ?_⟩
          simp [buildDocs, mkCriteriaDocument, if_pos hbad]
      · have hmk : mkCriteriaDocument p.1 p.2 = Except.ok { id := p.1, content := p.2 } := by
          simp [mkCriteriaDocument, if_neg hbad]
        constructor
        · rintro ⟨e, he⟩
          simp only [buildDocs, hmk] at he
          rcases hb : buildDocs ps with e2 | ds2
          · rcases ih.mp ⟨e2, hb⟩ with ⟨p2, hp2, hbad2⟩
            exact ⟨p2, List.mem_cons_of_mem p hp2, hbad2⟩
          · rw [hb] at he
            exact Except.noConfusion he
        · rintro ⟨p2, hp2, hbad2⟩
          rcases List.mem_cons.mp hp2 with h | h
          · exact absurd (h ▸ hbad2) hbad
          · rcases ih.mpr ⟨p2, h, hbad2⟩ with ⟨e2, he2⟩
            exact ⟨e2, by simp [buildDocs, hmk, he2]⟩

/-- Successful document construction produces exactly the given pairs. -/
theorem buildDocs_ok_shape : ∀ (dps : List (Str × Str)) (ds : List CriteriaDocument),
    buildDocs dps = Except.ok ds →
    ds = dps.map (fun p => { id := p.1, content := p.2 }) := by
  intro dps
  induction dps with
  | nil =>
      intro ds h
      simp only [buildDocs] at h
      cases h
      rfl
  | cons p ps ih =>
      intro ds h
      simp only [buildDocs] at h
      rcases hmk : mkCriteriaDocument p.1 p.2 with e | d
      · rw [hmk] at h
        exact Except.noConfusion h
      · rw [hmk] at h
        rcases hb : buildDocs ps with e2 | ds2
        · rw [hb] at h
          exact Except.noConfusion h
        · rw [hb] at h
          cases h
          have hd : d = { id := p.1, content := p.2 } := by
            unfold mkCriteriaDocument at hmk
            split_ifs at hmk
            exact (Except.ok.inj hmk).symm
          rw [hd, ih ds2 hb]
          rfl

/-- C8: constructing the retrieval input fails with a validation error
exactly when the query list is empty, some query is blank, the document
list is empty, or some document has a blank id or blank content.  Since
`retrieve` consumes a `RetrieverInput`, it can only run on data that
passed this construction, so no matching work happens on invalid input. -/
theorem claim_C8 (qs : List Str) (dps : List (Str × Str)) :
    (∃ e, mkRetrieverInput qs dps = Except.error e) ↔
      (qs = [] ∨ (∃ q ∈ qs, pyStrip q = []) ∨ dps = [] ∨
        ∃ p ∈ dps, pyStrip p.1 = [] ∨ pyStrip p.2 = []) := by
  rcases hb : buildDocs dps with e | ds
  · have hred : mkRetrieverInput qs dps = Except.error e := by
      unfold mkRetrieverInput
      rw [hb]
    constructor
    · intro _
      exact Or.inr (Or.inr (Or.inr ((buildDocs_error_iff dps).mp ⟨e, hb⟩)))
    · intro _
      exact ⟨e, hred⟩
  · have hred : mkRetrieverInput qs dps =
        (if qs = [] ∨ ∃ q ∈ qs, pyStrip q = [] then
          Except.error "חובה לספק לפחות שאילתה אחת לא ריקה."
        else if ds = [] then
          Except.error "חובה לספק לפחות מסמך קריטריונים אחד."
        else Except.ok { criteria_queries := qs, criteria_documents := ds }) := by
      unfold mkRetrieverInput
      rw [hb]
    rw [hred]
    have hgood : ¬ ∃ p ∈ dps, pyStrip p.1 = [] ∨ pyStrip p.2 = [] := by
      intro hex
      rcases (buildDocs_error_iff dps).mpr hex with ⟨e, he⟩
      rw [hb] at he
      exact Except.noConfusion he
    have hds := buildDocs_ok_shape dps ds hb
    by_cases hq : qs = [] ∨ ∃ q ∈ qs, pyStrip q = []
    · rw [if_pos hq]
      constructor
      · intro _
        rcases hq with h | h
        · exact Or.inl h
        · exact Or.inr (Or.inl h)
      · intro _
        exact ⟨_, rfl⟩
    · rw [if_neg hq]
      by_cases hd : ds = []
      · rw [if_pos hd]
        have hdps : dps = [] := by
          rw [hds] at hd
          exact List.map_eq_nil_iff.mp hd
        constructor
        · intro _
          exact Or.inr (Or.inr (Or.inl hdps))
        · intro _
          exact ⟨_, rfl⟩
      · rw [if_neg hd]
        constructor
        · rintro ⟨e, he⟩
          exact Except.noConfusion he
        · rintro (h | h | h | h)
          · exact absurd (Or.inl h) hq
          · exact absurd (Or.inr h) hq
          · subst h
            exact absurd (by rw [hds]; rfl) hd
          · exact absurd h hgood

/-- Witness for C8: blank-content documents are rejected, and a fully valid
input is accepted. -/
theorem claim_C8_witness :
    (∃ e, mkRetrieverInput ["שאילתה".data] [("מסמך".data, "  ".data)] =
      Except.error e) ∧
    ¬ ∃ e, mkRetrieverInput ["שאילתה".data] [("מסמך".data, "תוכן".data)] =
      Except.error e :=
  ⟨(claim_C8 (["שאילתה".data]) ([("מסמך".data, "  ".data)])).mpr
      (Or.inr (Or.inr (Or.inr ⟨("מסמך".data, "  ".data), by decide⟩))),
   fun hex =>
     absurd ((claim_C8 (["שאילתה".data]) ([("מסמך".data, "תוכן".data)])).mp hex)
       (by decide)⟩

/-- C10: every unit returned by `split_to_paragraphs` is, after trimming, a
contiguous substring of the content, so `content.index(best_para)` always
succeeds and the `except ValueError` branch of the windowed citation lookup
is unreachable. -/
theorem claim_C10 (t : Str) :
    ∀ p ∈ split_to_paragraphs t, p <:+: t ∧ ∃ i, firstIdxOf t p = some i := by
  intro p hp
  have hsub := (split_to_paragraphs_facts hp).2.2
  exact ⟨hsub, firstIdxOf_total hsub⟩

/-- Witness for C10 at a concrete two-line document. -/
theorem claim_C10_witness :
    ("א".data : Str) <:+: "א\nב".data ∧
    ∃ i, firstIdxOf ("א\nב".data) ("א".data) = some i :=
  claim_C10 ("א\nב".data) ("א".data) (by decide)

/-- Number of leading newline-style breaks (`\n` or `\r\n` groups). -/
def crlfGroups : Str → Nat
  | '\n' :: rest => crlfGroups rest + 1
  | '\r' :: '\n' :: rest => crlfGroups rest + 1
  | _ => 0

/-- Spec-side definition, following the specification's words for
`split_to_paragraphs`: split on blank-line boundaries (two or more
consecutive newline-style breaks); the Boolean mode consumes the rest of a
boundary run. -/
def splitOnBlankAux : Bool → Str → Str → List Str
  | false, acc, [] => [acc.reverse]
  | true, _, [] => [[]]
  | false, acc, c :: cs =>
      if 2 ≤ crlfGroups (c :: cs) then acc.reverse :: splitOnBlankAux true [] cs
      else splitOnBlankAux false (c :: acc) cs
  | true, _, c :: cs =>
      if c = '\n' ∨ (c = '\r' ∧ cs.head? = some '\n') then splitOnBlankAux true [] cs
      else splitOnBlankAux false [c] cs

/-- Spec-side definition, following the specification's words: splits on
blank-line boundaries (two or more consecutive newline-style breaks); if
this yields at most one unit, falls back to splitting on single line
breaks; each unit is trimmed and empty units are dropped. -/
def split_to_paragraphs_spec (t : Str) : List Str :=
  let parts := stripParts (splitOnBlankAux false [] t)
  if parts.length ≤ 1 then stripParts (splitlinesPy t) else parts

/-- Counterexample to C4: on `"a\nb\n\nc"` the code splits at the single
line break as well (the separator regex `\n{2,}|(?:\r?\n)+` also matches a
single newline), while the claimed blank-line-first behaviour would keep
`"a\nb"` together. -/
theorem claim_C4_counterexample :
    split_to_paragraphs ("a\nb\n\nc".data) = [['a'], ['b'], ['c']] ∧
    split_to_paragraphs_spec ("a\nb\n\nc".data) = ["a\nb".data, ['c']] ∧
    split_to_paragraphs ("a\nb\n\nc".data) ≠
      split_to_paragraphs_spec ("a\nb\n\nc".data) := by
  decide

/-- C4 (amended): `split_to_paragraphs` splits on every newline run — its
separator pattern also matches single line breaks, so there is no
blank-line-only first stage — and falls back to `splitlines` only when
that yields at most one unit; every returned unit is trimmed and
non-empty. -/
theorem claim_C4_amended (t : Str) :
    split_to_paragraphs t =
      (if (stripParts (charSplitPara t)).length ≤ 1 then stripParts (splitlinesPy t)
       else stripParts (charSplitPara t)) ∧
    ∀ p ∈ split_to_paragraphs t, p ≠ [] ∧ pyStrip p = p := by
  constructor
  · rw [split_to_paragraphs_def, primaryParts_eq]
  · intro p hp
    rcases split_to_paragraphs_facts hp with ⟨h1, h2, _⟩
    exact ⟨h1, h2⟩

/-- Witness for the amended C4 at a concrete document. -/
theorem claim_C4_witness :
    split_to_paragraphs ("a\nb".data) =
      (if (stripParts (charSplitPara ("a\nb".data))).length ≤ 1 then
        stripParts (splitlinesPy ("a\nb".data))
       else stripParts (charSplitPara ("a\nb".data))) ∧
    (['a'] : Str) ≠ [] ∧ pyStrip ['a'] = ['a'] :=
  ⟨(claim_C4_amended ("a\nb".data)).1,
   (claim_C4_amended ("a\nb".data)).2 ['a'] (by decide)⟩

/-- C2: when a query's keyword set is empty, or no keyword occurs in the
normalized paragraphs or sentences of any document, `retrieve` emits for
that query exactly one sentinel record with `source_id = "N/A"`, the fixed
Hebrew "no information found" text, and no section reference. -/
theorem claim_C2 (docs : List CriteriaDocument) (q : Str) (k : Nat)
    (h : keywords_from_query q = [] ∨
      ∀ kw ∈ keywords_from_query q, ∀ d ∈ docs,
        (∀ p ∈ split_to_paragraphs d.content, ¬ kw <:+: normalize_hebrew p) ∧
        (∀ s ∈ split_to_sentences d.content, ¬ kw <:+: normalize_hebrew s)) :
    retrieve_one docs q k = [sentinelSection] ∧
    sentinelSection.source_id = "N/A".data ∧
    sentinelSection.text = noInfoText ∧ noInfoText ≠ [] ∧
    sentinelSection.section_ref = none := by
  refine ⟨?_, rfl, rfl, by decide, rfl⟩
  have hcore : ∀ d ∈ docs, best_snippet_core q d = none := by
    intro d hd
    rw [core_none_iff]
    constructor
    · rw [specMaxScore_eq_zero]
      intro p hp
      rw [match_score_eq_zero]
      intro kw hkw
      rcases h with h | h
      · rw [h] at hkw
        simp at hkw
      · exact Or.inr ((h kw hkw d hd).1 p hp)
    · rw [specMaxScore_eq_zero]
      intro s hs
      rw [match_score_eq_zero]
      intro kw hkw
      rcases h with h | h
      · rw [h] at hkw
        simp at hkw
      · exact Or.inr ((h kw hkw d hd).2 s hs)
  have hcand : gatherCandidates docs q = [] := by
    unfold gatherCandidates
    rw [List.filterMap_eq_nil_iff]
    intro d hd
    unfold best_snippet_for_query_in_doc
    rw [hcore d hd]
    rfl
  unfold retrieve_one
  rw [hcand]
  rfl

/-- Witness for C2: a stop-word-only query against a non-empty corpus
yields exactly the sentinel record. -/
theorem claim_C2_witness :
    retrieve_one [{ id := "ד1".data, content := "תוכן כלשהו".data }]
        ("של על".data) 1 = [sentinelSection] ∧
    sentinelSection.source_id = "N/A".data ∧
    sentinelSection.text = noInfoText ∧ noInfoText ≠ [] ∧
    sentinelSection.section_ref = none :=
  claim_C2 [{ id := "ד1".data, content := "תוכן כלשהו".data }]
    ("של על".data) 1 (Or.inl (by decide))

/-- C6: `best_snippet_for_query_in_doc` scores paragraphs first and retries
at sentence granularity only when the best paragraph score is zero; among
equal-highest-scoring segments it keeps the first in document order; and it
returns a candidate exactly when the resulting best score is strictly
positive. -/
theorem claim_C6 (q : Str) (d : CriteriaDocument) :
    (best_snippet_core q d = none ↔
      (if 0 < specMaxScore (keywords_from_query q) (split_to_paragraphs d.content)
       then specMaxScore (keywords_from_query q) (split_to_paragraphs d.content)
       else specMaxScore (keywords_from_query q) (split_to_sentences d.content)) = 0) ∧
    ∀ raw ref, best_snippet_core q d = some (raw, ref) →
      (if 0 < specMaxScore (keywords_from_query q) (split_to_paragraphs d.content) then
        FirstArgmax (keywords_from_query q) (split_to_paragraphs d.content) raw
          (specMaxScore (keywords_from_query q) (split_to_paragraphs d.content))
      else
        FirstArgmax (keywords_from_query q) (split_to_sentences d.content) raw
          (specMaxScore (keywords_from_query q) (split_to_sentences d.content))) ∧
      0 < match_score (normalize_hebrew raw) (keywords_from_query q) := by
  constructor
  · by_cases hps : 0 < specMaxScore (keywords_from_query q) (split_to_paragraphs d.content)
    · rw [if_pos hps]
      constructor
      · intro hnone
        rcases core_some_para hps with ⟨raw, _, heq⟩
        rw [heq] at hnone
        exact Option.noConfusion hnone
      · intro h0
        omega
    · rw [if_neg hps]
      constructor
      · intro hnone
        exact (core_none_iff q d |>.mp hnone).2
      · intro h0
        exact core_none_iff q d |>.mpr ⟨by omega, h0⟩
  · intro raw ref hsome
    by_cases hps : 0 < specMaxScore (keywords_from_query q) (split_to_paragraphs d.content)
    · rw [if_pos hps]
      rcases core_some_para hps with ⟨raw2, hfa, heq⟩
      rw [heq] at hsome
      have hr : raw2 = raw := by
        have := Option.some.inj hsome
        exact congrArg Prod.fst this
      subst hr
      refine ⟨hfa, ?_⟩
      rcases hfa with ⟨i, hi, hget, hsc, _⟩
      omega
    · rw [if_neg hps]
      by_cases hss : 0 < specMaxScore (keywords_from_query q) (split_to_sentences d.content)
      · rcases core_some_sent (by omega) hss with ⟨raw2, hfa, heq⟩
        rw [heq] at hsome
        have hr : raw2 = raw := by
          have := Option.some.inj hsome
          exact congrArg Prod.fst this
        subst hr
        refine ⟨hfa, ?_⟩
        rcases hfa with ⟨i, hi, hget, hsc, _⟩
        omega
      · exfalso
        have : best_snippet_core q d = none :=
          core_none_iff q d |>.mpr ⟨by omega, by omega⟩
        rw [this] at hsome
        exact Option.noConfusion hsome

/-- Witness for C6 at a concrete query and document. -/
theorem claim_C6_witness :
    (if 0 < specMaxScore (keywords_from_query ("גיל".data))
        (split_to_paragraphs ("גיל מינימלי 18".data)) then
      FirstArgmax (keywords_from_query ("גיל".data))
        (split_to_paragraphs ("גיל מינימלי 18".data)) ("גיל מינימלי 18".data)
        (specMaxScore (keywords_from_query ("גיל".data))
          (split_to_paragraphs ("גיל מינימלי 18".data)))
    else
      FirstArgmax (keywords_from_query ("גיל".data))
        (split_to_sentences ("גיל מינימלי 18".data)) ("גיל מינימלי 18".data)
        (specMaxScore (keywords_from_query ("גיל".data))
          (split_to_sentences ("גיל מינימלי 18".data)))) ∧
    0 < match_score (normalize_hebrew ("גיל מינימלי 18".data))
        (keywords_from_query ("גיל".data)) :=
  (claim_C6 ("גיל".data) { id := "ד1".data, content := "גיל מינימלי 18".data }).2
    ("גיל מינימלי 18".data) none (by decide)

/-- The fixed window is a contiguous region of the content. -/
theorem windowAt_sub (c : Str) (i n : Nat) : windowAt c i n <:+: c := by
  unfold windowAt
  exact (List.take_prefix _ _).isInfix.trans (List.drop_suffix _ _).isInfix

/-- A paragraph-score maximum of zero forces a sentence-score maximum of
zero: the sentence-granularity branch can never supply the winning
segment. -/
theorem sentMax_zero_of_paraMax_zero {q : Str} {d : CriteriaDocument}
    (hps : specMaxScore (keywords_from_query q) (split_to_paragraphs d.content) = 0) :
    specMaxScore (keywords_from_query q) (split_to_sentences d.content) = 0 := by
  rw [specMaxScore_eq_zero]
  exact dead_sentences keywords_good (specMaxScore_eq_zero.mp hps)

/-- Dispatch lemma: any successful core result chooses a positively scoring
paragraph (the sentence branch being dead code), which is an infix of the
content, and its section reference is `None` or a positive match inside the
content. -/
theorem core_some_facts {q : Str} {d : CriteriaDocument} {raw : Str} {ref : Option Str}
    (h : best_snippet_core q d = some (raw, ref)) :
    0 < match_score (normalize_hebrew raw) (keywords_from_query q) ∧
    raw ∈ split_to_paragraphs d.content ∧
    raw <:+: d.content ∧
    (ref = none ∨ ∃ w, w <:+: d.content ∧ extract_section_ref w = ref) := by
  by_cases hps : 0 < specMaxScore (keywords_from_query q) (split_to_paragraphs d.content)
  · rcases core_some_para hps with ⟨raw2, hfa, heq⟩
    rw [heq] at h
    have hinj := Option.some.inj h
    have hr : raw2 = raw := congrArg Prod.fst hinj
    subst hr
    have href : (if extract_section_ref raw2 = none then windowRef d.content raw2
        else extract_section_ref raw2) = ref := congrArg Prod.snd hinj
    have hmem : raw2 ∈ split_to_paragraphs d.content := firstArgmax_mem hfa
    have hsub : raw2 <:+: d.content := (split_to_paragraphs_facts hmem).2.2
    have hscore : 0 < match_score (normalize_hebrew raw2) (keywords_from_query q) := by
      rcases hfa with ⟨i, hi, hget, hsc, _⟩
      omega
    refine ⟨hscore, hmem, hsub, ?_⟩
    by_cases hx : extract_section_ref raw2 = none
    · rw [if_pos hx] at href
      unfold windowRef at href
      rcases hidx : firstIdxOf d.content raw2 with _ | idx
      · rw [hidx] at href
        exact Or.inl href.symm
      · rw [hidx] at href
        exact Or.inr ⟨windowAt d.content idx raw2.length,
          windowAt_sub d.content idx raw2.length, href⟩
    · rw [if_neg hx] at href
      exact Or.inr ⟨raw2, hsub, href⟩
  · by_cases hss : 0 < specMaxScore (keywords_from_query q) (split_to_sentences d.content)
    · exfalso
      have := sentMax_zero_of_paraMax_zero (q := q) (d := d) (by omega)
      omega
    · exfalso
      have hnone : best_snippet_core q d = none :=
        core_none_iff q d |>.mpr ⟨by omega, by omega⟩
      rw [hnone] at h
      exact Option.noConfusion h

/-- C5: whenever the core chooses a best-scoring segment with no inline
section marker, the citation lookup finds the segment's position in the
full document (never failing) and returns the first section-marker match of
the fixed 400-character window around it, leaving the reference `None` only
when the window has no match.  The sentence granularity never reaches this
point: a positive sentence score forces a positive paragraph score, so the
chosen segment is always a paragraph. -/
theorem claim_C5 (q : Str) (d : CriteriaDocument) :
    ∀ raw ref, best_snippet_core q d = some (raw, ref) →
      extract_section_ref raw = none →
      ∃ idx, firstIdxOf d.content raw = some idx ∧
        ref = extract_section_ref (windowAt d.content idx raw.length) := by
  intro raw ref hsome hx
  by_cases hps : 0 < specMaxScore (keywords_from_query q) (split_to_paragraphs d.content)
  · rcases core_some_para hps with ⟨raw2, hfa, heq⟩
    rw [heq] at hsome
    have hinj := Option.some.inj hsome
    have hr : raw2 = raw := congrArg Prod.fst hinj
    subst hr
    have href : (if extract_section_ref raw2 = none then windowRef d.content raw2
        else extract_section_ref raw2) = ref := congrArg Prod.snd hinj
    rw [if_pos hx] at href
    have hmem : raw2 ∈ split_to_paragraphs d.content := firstArgmax_mem hfa
    have hsub : raw2 <:+: d.content := (split_to_paragraphs_facts hmem).2.2
    rcases firstIdxOf_total hsub with ⟨idx, hidx⟩
    refine ⟨idx, hidx, ?_⟩
    unfold windowRef at href
    rw [hidx] at href
    exact href.symm
  · by_cases hss : 0 < specMaxScore (keywords_from_query q) (split_to_sentences d.content)
    · exfalso
      have := sentMax_zero_of_paraMax_zero (q := q) (d := d) (by omega)
      omega
    · exfalso
      have hnone : best_snippet_core q d = none :=
        core_none_iff q d |>.mpr ⟨by omega, by omega⟩
      rw [hnone] at hsome
      exact Option.noConfusion hsome

/-- Witness for C5: the chosen paragraph has no inline marker, and the
reference is recovered from the window around its position. -/
theorem claim_C5_witness :
    ∃ idx, firstIdxOf ("סעיף 5 קובע:\nגיל הזכאות הוא שמונה עשרה.".data)
        ("גיל הזכאות הוא שמונה עשרה.".data) = some idx ∧
      (some ("סעיף 5".data) : Option Str) =
        extract_section_ref (windowAt ("סעיף 5 קובע:\nגיל הזכאות הוא שמונה עשרה.".data)
          idx ("גיל הזכאות הוא שמונה עשרה.".data).length) :=
  claim_C5 ("גיל".data)
    { id := "ד1".data, content := "סעיף 5 קובע:\nגיל הזכאות הוא שמונה עשרה.".data }
    ("גיל הזכאות הוא שמונה עשרה.".data) (some ("סעיף 5".data))
    (by decide) (by decide)

/-- Truncation never empties a snippet that strips to something. -/
theorem truncate_ne_nil {raw : Str} {m : Nat} (h : pyStrip raw ≠ []) :
    truncate_snippet raw m ≠ [] := by
  unfold truncate_snippet
  by_cases hlen : m < (pyStrip raw).length
  · rw [if_pos hlen]
    simp
  · rw [if_neg hlen]
    exact h

/-- C9: every record emitted by `retrieve` carries a real document id or the
sentinel `"N/A"`, a non-empty text, and a section reference that is `None`
unless the citation pattern positively matched inside the source document
(in the chosen segment or its surrounding window). -/
theorem claim_C9 (inp : RetrieverInput) (k : Nat) :
    ∀ sec ∈ (retrieve inp k).retrieved_sections,
      (sec.source_id = "N/A".data ∨
        ∃ d ∈ inp.criteria_documents, sec.source_id = d.id) ∧
      sec.text ≠ [] ∧
      (sec.section_ref = none ∨
        ∃ d ∈ inp.criteria_documents, sec.source_id = d.id ∧
          ∃ w, w <:+: d.content ∧ extract_section_ref w = sec.section_ref) := by
  intro sec hsec
  unfold retrieve at hsec
  rcases List.mem_flatMap.mp hsec with ⟨q, _, hone⟩
  unfold retrieve_one at hone
  by_cases hc : gatherCandidates inp.criteria_documents q = []
  · rw [if_pos hc] at hone
    rcases List.mem_singleton.mp hone with rfl
    refine ⟨Or.inl rfl, by decide, Or.inl rfl⟩
  · rw [if_neg hc] at hone
    rcases List.mem_map.mp hone with ⟨trip, htrip, hsec2⟩
    have htrip2 : trip ∈ gatherCandidates inp.criteria_documents q :=
      List.mem_of_mem_take htrip
    unfold gatherCandidates at htrip2
    rcases List.mem_filterMap.mp htrip2 with ⟨d, hd, hopt⟩
    rcases hbs : best_snippet_for_query_in_doc q d with _ | pr
    · rw [hbs] at hopt
      exact Option.noConfusion hopt
    · rw [hbs] at hopt
      have htripeq : trip = (d.id, pr.1, pr.2) := by
        rcases pr with ⟨s, r⟩
        exact (Option.some.inj hopt).symm
      unfold best_snippet_for_query_in_doc at hbs
      rcases hcore : best_snippet_core q d with _ | cr
      · rw [hcore] at hbs
        exact Option.noConfusion hbs
      · rw [hcore] at hbs
        have hpr : pr = (truncate_snippet cr.1 700, cr.2) := (Option.some.inj hbs).symm
        rcases cr with ⟨raw, ref⟩
        rcases core_some_facts hcore with ⟨hscore, _, hsub, href⟩
        subst hsec2
        subst htripeq
        subst hpr
        refine ⟨Or.inr ⟨d, hd, rfl⟩, ?_, ?_⟩
        · exact truncate_ne_nil (strip_ne_nil_of_score hscore)
        · rcases href with h | ⟨w, hw1, hw2⟩
          · exact Or.inl h
          · exact Or.inr ⟨d, hd, rfl, w, hw1, hw2⟩

/-- Concrete document for the C9 witness. -/
def exDoc9 : CriteriaDocument :=
  { id := "ד1".data, content := "סעיף 5 קובע: גיל".data }

/-- Concrete emitted record for the C9 witness. -/
def exSec9 : RetrievedSection :=
  { source_id := "ד1".data, text := "סעיף 5 קובע: גיל".data,
    section_ref := some ("סעיף 5".data) }

/-- Witness for C9 at a concrete run. -/
theorem claim_C9_witness :
    (exSec9.source_id = "N/A".data ∨
      ∃ d ∈ [exDoc9], exSec9.source_id = d.id) ∧
    exSec9.text ≠ [] ∧
    (exSec9.section_ref = none ∨
      ∃ d ∈ [exDoc9], exSec9.source_id = d.id ∧
        ∃ w, w <:+: d.content ∧ extract_section_ref w = exSec9.section_ref) :=
  claim_C9 { criteria_queries := ["גיל".data], criteria_documents := [exDoc9] }
    1 exSec9 (by decide)

/-- Concrete 701-character document for C3: the stripped snippet has length
701, and character 700 (the cut point) is preceded by a space. -/
def exDoc3 : CriteriaDocument :=
  { id := "ד1".data,
    content := "בדיקה".data ++ List.replicate 694 'א' ++ [' ', 'ב'] }

/-- Concrete retrieval input for C3. -/
def exInp3 : RetrieverInput :=
  { criteria_queries := ["בדיקה".data], criteria_documents := [exDoc3] }

set_option maxRecDepth 20000 in
/-- Counterexample to C3: the underlying snippet has 701 characters, yet
the emitted text has length 700, not max_length + 1 = 701, because
`snippet[:700].rstrip()` removes the space before the appended ellipsis. -/
theorem claim_C3_counterexample :
    best_snippet_core ("בדיקה".data) exDoc3 = some (exDoc3.content, none) ∧
    700 < (pyStrip exDoc3.content).length ∧
    ((retrieve exInp3 1).retrieved_sections.map (fun s => s.text.length)) = [700] ∧
    (700 : Nat) ≠ 700 + 1 := by
  exact ⟨by decide, by decide, by decide, by decide⟩

/-- C3 (amended): every emitted snippet whose underlying raw segment strips
to more than 700 characters ends with the ellipsis marker and has length at
most 701 (trailing whitespace before the cut is removed before the marker
is appended, so the length can fall short of exactly 701). -/
theorem claim_C3_amended (q : Str) (d : CriteriaDocument) :
    ∀ raw ref, best_snippet_core q d = some (raw, ref) →
      700 < (pyStrip raw).length →
      best_snippet_for_query_in_doc q d = some (truncate_snippet raw 700, ref) ∧
      (truncate_snippet raw 700).getLast? = some '…' ∧
      (truncate_snippet raw 700).length ≤ 701 := by
  intro raw ref hcore hlen
  refine ⟨?_, ?_, ?_⟩
  · unfold best_snippet_for_query_in_doc
    rw [hcore]
    rfl
  · unfold truncate_snippet
    rw [if_pos hlen]
    simp
  · unfold truncate_snippet
    rw [if_pos hlen, List.length_append]
    have h1 : (pyRstrip ((pyStrip raw).take 700)).length ≤
        ((pyStrip raw).take 700).length := by
      unfold pyRstrip
      rw [List.length_reverse]
      calc (List.dropWhile pyIsSpace ((pyStrip raw).take 700).reverse).length
          ≤ ((pyStrip raw).take 700).reverse.length :=
            (List.dropWhile_sublist _).length_le
        _ = ((pyStrip raw).take 700).length := List.length_reverse _
    have h2 : ((pyStrip raw).take 700).length ≤ 700 := by
      rw [List.length_take]
      omega
    simp only [List.length_singleton]
    omega

set_option maxRecDepth 20000 in
/-- Witness for the amended C3 at the concrete 701-character document. -/
theorem claim_C3_witness :
    best_snippet_for_query_in_doc ("בדיקה".data) exDoc3 =
      some (truncate_snippet exDoc3.content 700, none) ∧
    (truncate_snippet exDoc3.content 700).getLast? = some '…' ∧
    (truncate_snippet exDoc3.content 700).length ≤ 701 :=
  claim_C3_amended ("בדיקה".data) exDoc3 exDoc3.content none (by decide) (by decide)

/-- Mapping a total extraction keeps the list length. -/
theorem filterMap_length_all_some {α β : Type} (f : α → Option β) :
    ∀ l : List α, (∀ a ∈ l, (f a).isSome) → (l.filterMap f).length = l.length := by
  intro l
  induction l with
  | nil => intro _; rfl
  | cons a l' ih =>
      intro h
      have ha := h a (by simp)
      rcases hfa : f a with _ | b
      · rw [hfa] at ha
        simp at ha
      · rw [List.filterMap_cons_some hfa]
        simp only [List.length_cons]
        rw [ih (fun x hx => h x (List.mem_cons_of_mem a hx))]

/-- Summing a constant map. -/
theorem sum_map_const {α : Type} (k : Nat) :
    ∀ l : List α, (l.map (fun _ => k)).sum = l.length * k := by
  intro l
  induction l with
  | nil => simp
  | cons a l' ih =>
      simp only [List.map_cons, List.sum_cons, ih, List.length_cons]
      ring

/-- C1 (amended): the output of `retrieve` is the concatenation of per-query
batches in input-query order, and its length is the sum over queries of the
batch sizes, where a query's batch has `min maxPerQuery c` records when it
has `c > 0` candidates and exactly one sentinel record when it has none.
In particular the output has exactly `len(queries) * maxPerQuery` records
when every query matches in every document and additionally
`1 ≤ maxPerQuery ≤ len(documents)`. -/
theorem claim_C1_amended (inp : RetrieverInput) (k : Nat) :
    (retrieve inp k).retrieved_sections.length =
      (inp.criteria_queries.map (fun q =>
        if gatherCandidates inp.criteria_documents q = [] then 1
        else min k (gatherCandidates inp.criteria_documents q).length)).sum ∧
    (1 ≤ k → k ≤ inp.criteria_documents.length →
      (∀ q ∈ inp.criteria_queries, ∀ d ∈ inp.criteria_documents,
        best_snippet_for_query_in_doc q d ≠ none) →
      (retrieve inp k).retrieved_sections.length =
        inp.criteria_queries.length * k) := by
  have hone_len : ∀ q, (retrieve_one inp.criteria_documents q k).length =
      if gatherCandidates inp.criteria_documents q = [] then 1
      else min k (gatherCandidates inp.criteria_documents q).length := by
    intro q
    unfold retrieve_one
    by_cases hc : gatherCandidates inp.criteria_documents q = []
    · rw [if_pos hc, if_pos hc]
      rfl
    · rw [if_neg hc, if_neg hc, List.length_map, List.length_take]
  have hlen : (retrieve inp k).retrieved_sections.length =
      (inp.criteria_queries.map (fun q =>
        if gatherCandidates inp.criteria_documents q = [] then 1
        else min k (gatherCandidates inp.criteria_documents q).length)).sum := by
    unfold retrieve
    rw [List.length_flatMap]
    congr 1
    exact List.map_congr_left (fun q _ => hone_len q)
  refine ⟨hlen, ?_⟩
  intro hk1 hk2 hmatch
  rw [hlen]
  have hbatch : ∀ q ∈ inp.criteria_queries,
      (if gatherCandidates inp.criteria_documents q = [] then 1
       else min k (gatherCandidates inp.criteria_documents q).length) = k := by
    intro q hq
    have hclen : (gatherCandidates inp.criteria_documents q).length =
        inp.criteria_documents.length := by
      unfold gatherCandidates
      refine filterMap_length_all_some _ _ ?_
      intro d hd
      rcases hbs : best_snippet_for_query_in_doc q d with _ | pr
      · exact absurd hbs (hmatch q hq d hd)
      · simp
    have hcne : gatherCandidates inp.criteria_documents q ≠ [] := by
      intro h
      rw [h] at hclen
      simp at hclen
      omega
    rw [if_neg hcne, hclen]
    omega
  calc (inp.criteria_queries.map (fun q =>
        if gatherCandidates inp.criteria_documents q = [] then 1
        else min k (gatherCandidates inp.criteria_documents q).length)).sum
      = (inp.criteria_queries.map (fun _ => k)).sum := by
        congr 1
        exact List.map_congr_left hbatch
    _ = inp.criteria_queries.length * k := sum_map_const k inp.criteria_queries

/-- Concrete single-document input for C1. -/
def exDoc1 : CriteriaDocument := { id := "מ1".data, content := "בדיקה".data }

/-- Concrete retrieval input for C1. -/
def exInp1 : RetrieverInput :=
  { criteria_queries := ["בדיקה".data], criteria_documents := [exDoc1] }

/-- Counterexample to C1: one query matching the single document with
`maxPerQuery = 2` yields 1 record, not `len(queries) * maxPerQuery = 2`. -/
theorem claim_C1_counterexample :
    (∀ q ∈ exInp1.criteria_queries, ∀ d ∈ exInp1.criteria_documents,
      best_snippet_for_query_in_doc q d ≠ none) ∧
    (retrieve exInp1 2).retrieved_sections.length = 1 ∧
    exInp1.criteria_queries.length * 2 = 2 ∧ (1 : Nat) ≠ 2 := by
  exact ⟨by decide, by decide, by decide, by decide⟩

/-- Witness for the amended C1 at a concrete input with
`maxPerQuery = 1 ≤ len(documents)`. -/
theorem claim_C1_witness :
    (retrieve exInp1 1).retrieved_sections.length =
      (exInp1.criteria_queries.map (fun q =>
        if gatherCandidates exInp1.criteria_documents q = [] then 1
        else min 1 (gatherCandidates exInp1.criteria_documents q).length)).sum ∧
    (retrieve exInp1 1).retrieved_sections.length =
      exInp1.criteria_queries.length * 1 :=
  ⟨(claim_C1_amended exInp1 1).1,
   (claim_C1_amended exInp1 1).2 (by decide) (by decide) (by decide)⟩
